import Mathlib

/-!
Verification of the diagram synchronization engine in
`transitions/extensions/diagrams.py` (GraphMachine, AGraph,
TransitionGraphSupport).

The embedding below is a shallow model of that file.  Attribute
dictionaries are ordered association lists with Python `dict` semantics
(assignment replaces the value in place, `update` merges key by key).
The pygraphviz `AGraph` object is modelled as a record of nodes, edges
and clusters; per the repository spec the rendering backend only has to
offer add node/edge/subgraph, edge and node queries, and attribute
dictionaries.  The state-machine core (`transitions/core.py`,
`transitions/extensions/nesting.py`) is not part of the diagrams module;
the few places where it is needed are modelled from the spec and marked
as such.  All operations are pure; failures that Python signals by
raising (KeyError on a missing state or edge, AttributeError when a
cluster walk falls off the graph, TypeError on a missing style entry)
are modelled with Option / Except.
-/

namespace TransDiag

/-- Python dict read: first binding of the key, if any. -/
def attrFind : List (String × String) → String → Option String
  | [], _ => none
  | p :: rest, k => if p.1 == k then some p.2 else attrFind rest k

/-- Python dict assignment: replace the first binding in place, else append. -/
def attrSet : List (String × String) → String → String → List (String × String)
  | [], k, v => [(k, v)]
  | p :: rest, k, v => if p.1 == k then (k, v) :: rest else p :: attrSet rest k v

/-- Python `dict.update`: assign every binding of the patch in order. -/
def attrUpdate (a patch : List (String × String)) : List (String × String) :=
  patch.foldl (fun acc p => attrSet acc p.1 p.2) a

/-- Keys of an attribute dictionary. -/
def attrKeys (a : List (String × String)) : List String := a.map Prod.fst

/-- Visual roles of the style table (diagrams.py lines 36-64). -/
inductive Role where
  | default
  | active
  | previous
deriving DecidableEq, Repr

/-- `AGraph.style_attributes['node']` (diagrams.py lines 37-54). -/
def style_attributes_node : Role → List (String × String)
  | Role.default =>
      [("shape", "circle"), ("height", "1.2"), ("style", "filled"),
       ("fillcolor", "white"), ("color", "black")]
  | Role.active =>
      [("color", "red"), ("fillcolor", "darksalmon"), ("shape", "doublecircle")]
  | Role.previous =>
      [("color", "blue"), ("fillcolor", "azure2")]

/-- `AGraph.style_attributes['edge']` (diagrams.py lines 55-64).  The table has
no `active` entry, so `dict.get` yields none there (Python would then raise
in `set_edge_style`). -/
def style_attributes_edge : Role → Option (List (String × String))
  | Role.default => some [("color", "black")]
  | Role.previous => some [("color", "blue")]
  | Role.active => none

/-- A graph node: name plus attribute dictionary. -/
structure Node where
  name : String
  attr : List (String × String)
deriving DecidableEq, Repr

/-- A graph edge: endpoints plus attribute dictionary. -/
structure Edge where
  src : String
  dst : String
  attr : List (String × String)
deriving DecidableEq, Repr

/-- The abstract graph owned per model.  Clusters (pygraphviz subgraphs for
composite states) are kept as a flat map from the qualified state name to the
graph attribute dictionary of the subgraph; `set_node_state` walks the
nesting separator segments one `get_subgraph` at a time, which on graphs
built by `_add_nodes` is exactly a lookup of the full qualified name. -/
structure Graph where
  nodes : List Node
  edges : List Edge
  clusters : List (String × List (String × String))
deriving DecidableEq, Repr

def Graph.nodeNames (g : Graph) : List String := g.nodes.map Node.name

def Graph.has_node (g : Graph) (n : String) : Bool :=
  g.nodes.any (fun nd => nd.name == n)

def Graph.get_node (g : Graph) (n : String) : Option Node :=
  g.nodes.find? (fun nd => nd.name == n)

/-- pygraphviz `add_node`: an existing node of that name has its attributes
merged, a fresh node is appended. -/
def Graph.add_node (g : Graph) (n : String) (a : List (String × String)) : Graph :=
  if g.has_node n then
    { g with nodes := g.nodes.map (fun nd =>
        if nd.name == n then { nd with attr := attrUpdate nd.attr a } else nd) }
  else { g with nodes := g.nodes ++ [⟨n, a⟩] }

def Graph.has_edge (g : Graph) (s d : String) : Bool :=
  g.edges.any (fun e => e.src == s && e.dst == d)

def Graph.get_edge (g : Graph) (s d : String) : Option Edge :=
  g.edges.find? (fun e => e.src == s && e.dst == d)

/-- pygraphviz keeps every edge endpoint as a node: a missing endpoint is
added first; a new node picks up the graph-level default node attributes,
which `AGraph.get_graph` (line 147) sets to the default node style. -/
def Graph.ensure_node (g : Graph) (n : String) : Graph :=
  if g.has_node n then g
  else { g with nodes := g.nodes ++ [⟨n, style_attributes_node Role.default⟩] }

/-- pygraphviz `add_edge`: both endpoints are ensured as nodes, then the
edge is appended with its attributes. -/
def Graph.add_edge (g : Graph) (s d : String) (a : List (String × String)) : Graph :=
  let g2 := (g.ensure_node s).ensure_node d
  { g2 with edges := g2.edges ++ [⟨s, d, a⟩] }

/-- Replace the first element satisfying the test (pygraphviz `get_edge`
returns one edge handle which is then mutated). -/
def updateFirst (p : α → Bool) (f : α → α) : List α → List α
  | [] => []
  | x :: xs => if p x then f x :: xs else x :: updateFirst p f xs

/-- A state definition.  `name` is the qualified name; `children` are the
nested states of a composite (empty for a leaf).  Plain machines have only
leaves; the `hasattr(state, 'children')` checks of the Python code are the
identity on them, so the model resolves unconditionally. -/
inductive St where
  | mk (name : String) (children : List St)

mutual
def St.decEq : (a b : St) → Decidable (a = b)
  | .mk n cs, .mk n2 cs2 =>
    match String.decEq n n2 with
    | isTrue hn =>
      match St.decEqList cs cs2 with
      | isTrue hc => isTrue (by rw [hn, hc])
      | isFalse hc => isFalse (fun h => hc (by cases h; rfl))
    | isFalse hn => isFalse (fun h => hn (by cases h; rfl))

def St.decEqList : (a b : List St) → Decidable (a = b)
  | [], [] => isTrue rfl
  | [], _ :: _ => isFalse (fun h => nomatch h)
  | _ :: _, [] => isFalse (fun h => nomatch h)
  | a :: as, b :: bs =>
    match St.decEq a b with
    | isTrue h1 =>
      match St.decEqList as bs with
      | isTrue h2 => isTrue (by rw [h1, h2])
      | isFalse h2 => isFalse (fun h => h2 (by cases h; rfl))
    | isFalse h1 => isFalse (fun h => h1 (by cases h; rfl))
end

instance : DecidableEq St := St.decEq

instance : Repr St := ⟨fun s _ => match s with | .mk n _ => Std.Format.text n⟩

def St.name : St → String
  | .mk n _ => n

def St.children : St → List St
  | .mk _ cs => cs

/-- Descend `state = state.children[0]` while composite (the deepest first
leaf, diagrams.py lines 98-100, 108-110, 309-312). -/
def St.resolveLeaf : St → St
  | .mk n [] => .mk n []
  | .mk _ (c :: _) => St.resolveLeaf c

/-- A guard condition of a transition (`c.func`, `c.target`). -/
structure Cond where
  func : String
  target : Bool
deriving DecidableEq, Repr

/-- One transition entry of an event (its source is the key it is filed
under in the event's transition mapping). -/
structure TransDef where
  dest : String
  conditions : List Cond
deriving DecidableEq, Repr

/-- An event: name plus the mapping source-state-name to transitions. -/
structure Event where
  name : String
  transitions : List (String × List TransDef)
deriving DecidableEq, Repr

/-- A bound model: its current state, its cached diagram (the `graph`
attribute, absent before the first build), and whether the object already
exposed a `get_graph` attribute before binding. -/
structure Model where
  state : String
  graph : Option Graph
  hasGetGraph : Bool
deriving DecidableEq, Repr

/-- The GraphMachine: the machine definition (flat ordered mapping of
qualified state name to state, as the core keeps it), the events, the two
display flags, the initial state and the bound models. -/
structure GM where
  states : List (String × St)
  events : List Event
  show_auto_transitions : Bool
  show_conditions : Bool
  initial : String
  models : List Model
deriving DecidableEq, Repr

/-- `machine.get_state(name)`: none models the KeyError on an unknown name. -/
def GM.get_state (m : GM) (name : String) : Option St :=
  (m.states.find? (fun p => p.1 == name)).map Prod.snd

/-- Accumulator of the recursive `_add_nodes` walk: the graph being built
and the visited-name list `self.seen`. -/
structure BuildAcc where
  g : Graph
  seen : List String
deriving Repr

mutual
/-- `AGraph._add_nodes` (diagrams.py lines 71-84) on one state: skip if
seen; a composite becomes a cluster and its children are walked; a leaf
becomes a node.  The Python call only passes the default shape explicitly,
but the graph-level default node attributes (line 147) supply the rest, so
a fresh node effectively carries the full default node style. -/
def addNodesState (acc : BuildAcc) : St → BuildAcc
  | .mk n [] =>
      if acc.seen.contains n then acc
      else { g := { acc.g with nodes := acc.g.nodes ++ [⟨n, style_attributes_node Role.default⟩] },
             seen := acc.seen ++ [n] }
  | .mk n (c :: cs) =>
      if acc.seen.contains n then acc
      else addNodesList
        { g := { acc.g with clusters := acc.g.clusters ++ [(n, [("label", n), ("rank", "same")])] },
          seen := acc.seen ++ [n] } (c :: cs)

/-- `_add_nodes` over a list of states. -/
def addNodesList (acc : BuildAcc) : List St → BuildAcc
  | [] => acc
  | s :: rest => addNodesList (addNodesState acc s) rest
end

/-- `AGraph._transition_label` (diagrams.py lines 123-132). -/
def transition_label (show_conditions : Bool) (edge_label : String) (t : TransDef) : String :=
  if show_conditions && !t.conditions.isEmpty then
    edge_label ++ " [" ++
      String.intercalate " & "
        (t.conditions.map (fun c => if c.target then c.func else "!" ++ c.func)) ++ "]"
  else edge_label

/-- Python `str.startswith`, spelt out over the character lists so that it
evaluates by plain structural recursion. -/
def listLeading : List Char → List Char → Bool
  | _, [] => true
  | [], _ :: _ => false
  | c :: cs, d :: ds => c == d && listLeading cs ds

def strStartsWith (s p : String) : Bool := listLeading s.data p.data

/-- The auto-transition suppression test of `_add_edges` (lines 89-91):
the event is skipped when auto display is off, its name has the fixed
auto-transition lead-in, and its transition mapping has one entry per
machine state. -/
def eventSuppressed (m : GM) (ev : Event) : Bool :=
  !m.show_auto_transitions && strStartsWith ev.name "to_" &&
    ev.transitions.length == m.states.length

/-- One fully resolved edge record of `_add_edges`: resolved endpoints,
label text and cluster boundary markers. -/
structure ERec where
  src : String
  dst : String
  label : String
  ltail : String
  lhead : String
deriving DecidableEq, Repr

/-- Resolution of one transition of `_add_edges` (lines 101-116): look up
the destination, compute the label and `lhead`, descend to the first leaf,
and drop the degenerate parent-to-first-child edge (resolved endpoints
equal while the original names differ).  The outer some is the absence of
a KeyError; the inner Option is the skip. -/
def erecOfTrans (m : GM) (evName srcKey : String) (srcResName ltail : String)
    (t : TransDef) : Option (Option ERec) := do
  let dst ← m.get_state t.dest
  let edge_label := transition_label m.show_conditions evName t
  let lhead := if dst.children.isEmpty then "" else "cluster_" ++ dst.name
  let dstRes := St.resolveLeaf dst
  if dstRes.name == srcResName && srcKey != t.dest then
    some none
  else
    some (some ⟨srcResName, dstRes.name, edge_label, ltail, lhead⟩)

/-- Resolution of one source entry of an event (lines 93-100): look up the
source, compute `ltail` and the resolved source leaf, then resolve each
transition. -/
def erecsOfSrcPair (m : GM) (evName : String) : String × List TransDef → Option (List ERec)
  | (srcKey, ts) => do
      let src ← m.get_state srcKey
      let ltail := if src.children.isEmpty then "" else "cluster_" ++ src.name
      let srcRes := St.resolveLeaf src
      let recs ← ts.mapM (erecOfTrans m evName srcKey srcRes.name ltail)
      some recs.reduceOption

/-- Resolution of one event (lines 87-116): a suppressed auto event
contributes nothing. -/
def erecsOfEvent (m : GM) (ev : Event) : Option (List ERec) :=
  if eventSuppressed m ev then some []
  else do
    let rss ← ev.transitions.mapM (erecsOfSrcPair m ev.name)
    some rss.flatten

/-- All resolved edge records of `_add_edges`, in definition order. -/
def edgeRecs (m : GM) : Option (List ERec) := do
  let rss ← m.events.mapM (erecsOfEvent m)
  some rss.flatten

/-- The merge step of `_add_edges` (lines 117-121): append to the label of
the existing edge of that resolved pair. -/
def appendEdgeLabel (l : String) (e : Edge) : Edge :=
  { e with attr := attrSet e.attr "label" (((attrFind e.attr "label").getD "") ++ " | " ++ l) }

/-- Insertion of one resolved edge record (lines 117-121): merge into an
existing edge of the same resolved pair, else add a new edge carrying
label and cluster markers. -/
def stepEdge (g : Graph) (r : ERec) : Graph :=
  if g.has_edge r.src r.dst then
    { g with edges := (updateFirst (fun e => e.src == r.src && e.dst == r.dst)
        (appendEdgeLabel r.label) g.edges) }
  else
    g.add_edge r.src r.dst [("label", r.label), ("ltail", r.ltail), ("lhead", r.lhead)]

def applyERecs (g : Graph) (rs : List ERec) : Graph := rs.foldl stepEdge g

/-- `AGraph._add_edges` (lines 86-121) split into resolution followed by
insertion; a KeyError anywhere in the resolution aborts the build. -/
def add_edges (m : GM) (g : Graph) : Option Graph :=
  (edgeRecs m).map (applyERecs g)

/-- `AGraph.get_graph` (lines 134-156): fresh graph, default node style as
graph-level default, nodes, then edges. -/
def agraph_get_graph (m : GM) : Option Graph :=
  let acc := addNodesList ⟨⟨[], [], []⟩, []⟩ (m.states.map Prod.snd)
  add_edges m acc.g

/-- `GraphMachine.set_node_style` (lines 271-275): merge the style entry
into the attribute dictionary of the named node.  Python fetches the unique
node handle; the map touches exactly that node on duplicate-free graphs. -/
def set_node_style (g : Graph) (nodeName : String) (style : Role) : Graph :=
  { g with nodes := g.nodes.map (fun nd =>
      if nd.name == nodeName then
        { nd with attr := attrUpdate nd.attr (style_attributes_node style) }
      else nd) }

/-- `GraphMachine.set_edge_style` (lines 277-280) on the edge handle of a
resolved pair; none models the TypeError Python raises when the style table
has no entry for the role. -/
def set_edge_style_on (g : Graph) (s d : String) (style : Role) : Option Graph :=
  (style_attributes_edge style).map (fun sa =>
    { g with edges := (updateFirst (fun e => e.src == s && e.dst == d)
        (fun e => { e with attr := attrUpdate e.attr sa }) g.edges) })

/-- `GraphMachine.set_graph_style` (lines 282-285): merge the NODE style
entry into the graph attribute dictionary of a cluster. -/
def set_graph_style_cluster (g : Graph) (clusterName : String) (style : Role) : Graph :=
  { g with clusters := g.clusters.map (fun c =>
      if c.1 == clusterName then (c.1, attrUpdate c.2 (style_attributes_node style)) else c) }

/-- `GraphMachine.reset_nodes` (lines 236-238): every node back to the
default style. -/
def reset_nodes (g : Graph) : Graph :=
  { g with nodes := g.nodes.map (fun nd =>
      { nd with attr := attrUpdate nd.attr (style_attributes_node Role.default) }) }

/-- The edge reset loop of `set_edge_state` (lines 221-223): every edge
gets the default edge style merged in. -/
def reset_edges (g : Graph) : Graph :=
  { g with edges := g.edges.map (fun e =>
      { e with attr := attrUpdate e.attr [("color", "black")] }) }

/-- `GraphMachine.set_node_state` (lines 240-250): style the node when the
name is a node, else walk the separator segments through nested
`get_subgraph` calls, modelled as the lookup of the full qualified cluster
name; none models the AttributeError when the walk falls off the graph. -/
def set_node_state (g : Graph) (nodeName : String) (state : Role) : Option Graph :=
  if g.has_node nodeName then some (set_node_style g nodeName state)
  else if g.clusters.any (fun c => c.1 == nodeName) then
    some (set_graph_style_cluster g nodeName state)
  else none

/-- `GraphMachine.set_edge_state` (lines 215-224): lazily add the edge when
auto-transition display is off and it is absent (the label argument is
handed to the backend's `add_edge`; per the spec's abstract graph interface
it lands in the label attribute), then fetch the edge handle (none models
the KeyError when it is still absent), reset all edges to default, and
apply the requested style to the fetched edge. -/
def labelAttr : Option String → List (String × String)
  | some l => [("label", l)]
  | none => []

/-- The fetch-reset-style tail of `set_edge_state` (lines 219-224): fetch
the edge handle (none models the KeyError when it is absent), reset every
edge to default, then style the fetched edge. -/
def set_edge_state_aux (g1 : Graph) (edge_from edge_to : String) (state : Role) : Option Graph :=
  if g1.has_edge edge_from edge_to then
    set_edge_style_on (reset_edges g1) edge_from edge_to state
  else none

def set_edge_state (show_auto : Bool) (g : Graph) (edge_from edge_to : String)
    (state : Role) (label : Option String) : Option Graph :=
  set_edge_state_aux
    (if !show_auto && !(g.has_edge edge_from edge_to) then
      g.add_edge edge_from edge_to (labelAttr label)
    else g) edge_from edge_to state

/-- `TransitionGraphSupport._change_state` (lines 292-317): the diagram
update of one completed transition.  Lines 308-312 descend to the first
leaf; `hasattr(source, 'children')` holds for every nested state and the
descent is the identity on plain states, so the model resolves
unconditionally. -/
def change_state (m : GM) (g : Graph) (source : Option String) (destName : String)
    (eventName : String) : Option Graph := do
  let dest ← m.get_state destName
  let g1 := reset_nodes g
  match source with
  | none => set_node_state g1 dest.name Role.active
  | some s => do
      let src ← m.get_state s
      let g2 ← set_node_state g1 src.name Role.previous
      let srcRes := St.resolveLeaf src
      let destRes := St.resolveLeaf dest
      let g3 ← set_edge_state m.show_auto_transitions g2 srcRes.name destRes.name
                  Role.previous (some eventName)
      set_node_state g3 destRes.name Role.active

/-- `GraphMachine._get_graph` rebuild path (lines 201-208): build the full
graph, then mark the model's current state active. -/
def build_model_graph (m : GM) (state : String) : Option Graph := do
  let g ← agraph_get_graph m
  set_node_state g state Role.active

/-- `GraphMachine._get_graph` (lines 201-208) without the ROI branch: serve
the cached graph unless absent or a new one is forced; a rebuild caches the
fresh graph on the model. -/
def get_graph_model (m : GM) (mod : Model) (force_new : Bool) : Option (Model × Graph) :=
  match mod.graph, force_new with
  | some g, false => some (mod, g)
  | _, _ => (build_model_graph m mod.state).map (fun g => ({ mod with graph := some g }, g))

/-- Modelled from the spec: `Machine.add_states` of the core engine
(transitions/core.py, not part of the diagrams module) extends the machine
state collection with the new definitions. -/
def core_add_states (m : GM) (new : List (String × St)) : GM :=
  { m with states := m.states ++ new }

/-- Modelled from the spec: `Machine.add_transition` of the core engine
records one more transition under the named event, creating the event when
it is new. -/
def core_add_transition (m : GM) (trigger srcName : String) (t : TransDef) : GM :=
  if m.events.any (fun ev => ev.name == trigger) then
    { m with events := m.events.map (fun ev =>
        if ev.name == trigger then
          { ev with transitions :=
              (if ev.transitions.any (fun p => p.1 == srcName) then
                ev.transitions.map (fun p => if p.1 == srcName then (p.1, p.2 ++ [t]) else p)
              else ev.transitions ++ [(srcName, [t])]) }
        else ev) }
  else { m with events := m.events ++ [⟨trigger, [(srcName, [t])]⟩] }

/-- The rebuild loop shared by the `add_states` / `add_transition`
overrides (lines 226-234): every bound model gets a forced fresh graph. -/
def models_rebuild (m : GM) : List Model → Option (List Model)
  | [] => some []
  | mod :: rest => do
      let pair ← get_graph_model m mod true
      let rest1 ← models_rebuild m rest
      some (pair.1 :: rest1)

/-- `GraphMachine.add_states` (lines 226-229). -/
def gm_add_states (m : GM) (new : List (String × St)) : Option GM := do
  let m1 := core_add_states m new
  let models ← models_rebuild m1 m1.models
  some { m1 with models := models }

/-- `GraphMachine.add_transition` (lines 231-234). -/
def gm_add_transition (m : GM) (trigger srcName : String) (t : TransDef) : Option GM := do
  let m1 := core_add_transition m trigger srcName t
  let models ← models_rebuild m1 m1.models
  some { m1 with models := models }

/-- The model-binding loop of `GraphMachine.__init__` (lines 188-194): a
model that already exposes `get_graph` aborts construction with the
AttributeError; otherwise the accessor is bound, the graph built
(`model.get_graph()`, with the model current state marked active) and the
machine initial state marked active on it.  Modelled from the spec: the
core `Machine.__init__` sets each model's current state to the machine
initial state before this loop runs. -/
def bind_models (m : GM) : List Model → Except String (List Model)
  | [] => .ok []
  | mod :: rest =>
      if mod.hasGetGraph then
        .error "Model already has a get_graph attribute. Graph retrieval cannot be bound."
      else
        match build_model_graph m m.initial with
        | none => .error "KeyError"
        | some g =>
            match set_node_state g m.initial Role.active with
            | none => .error "KeyError"
            | some g2 =>
                (bind_models m rest).map
                  (fun ms => { state := m.initial, graph := some g2, hasGetGraph := false } :: ms)

/-- `GraphMachine.__init__` (lines 171-199) restricted to the model
binding: construction fails exactly when the binding loop fails. -/
def graph_machine_init (states : List (String × St)) (events : List Event)
    (show_auto show_conditions : Bool) (initial : String) (models : List Model) :
    Except String GM :=
  let m : GM := { states := states, events := events,
                  show_auto_transitions := show_auto, show_conditions := show_conditions,
                  initial := initial, models := [] }
  (bind_models m models).map (fun ms => { m with models := ms })

/-- Attribute of a named node, as the rendering backend reads it
(`node.attr[...]`). -/
def node_attr_lookup (g : Graph) (n k : String) : Option String :=
  (g.get_node n).bind (fun nd => attrFind nd.attr k)

/-- Attribute of the edge handle of a pair. -/
def edge_attr_lookup (g : Graph) (s d k : String) : Option String :=
  (g.get_edge s d).bind (fun e => attrFind e.attr k)

/-- The fillcolor a node shows (`t[0].attr['fillcolor']`; pygraphviz reads
the empty string for an attribute that was never assigned). -/
def node_fillcolor (g : Graph) (n : String) : String :=
  (node_attr_lookup g n "fillcolor").getD ""

/-- The node copy step of `_graph_roi` (`filtered.add_node(x, **x.attr)`):
the node handle of the source graph is copied with its attributes.  The
none fallback is unreachable on graphs whose edge endpoints are nodes, as
pygraphviz guarantees. -/
def roi_add_node (g filtered : Graph) (n : String) : Graph :=
  match g.get_node n with
  | some nd => filtered.add_node nd.name nd.attr
  | none => filtered.add_node n []

/-- One edge of the `_graph_roi` loop (lines 258-268): an edge leaving the
active node brings in its destination; an edge entering it brings in its
source only when that source shows the previous fillcolor; anything else
is dropped.  Edges not incident to the active node are not iterated at
all (`g.edges_iter(active)`). -/
def roi_step (g : Graph) (activeName : String) (f : Graph) (e : Edge) : Graph :=
  if e.src == activeName || e.dst == activeName then
    if e.src == activeName then
      (let f1 := roi_add_node g f e.dst
       { f1 with edges := f1.edges ++ [e] })
    else if node_fillcolor g e.src == "azure2" then
      (let f1 := roi_add_node g f e.src
       { f1 with edges := f1.edges ++ [e] })
    else f
  else f

/-- `GraphMachine._graph_roi` (lines 252-269): a fresh graph holding the
active node with its attributes, plus the edges selected by `roi_step`
with their endpoint nodes; none models the KeyError when the active name
is not a node. -/
def graph_roi (g : Graph) (activeName : String) : Option Graph := do
  let active ← g.get_node activeName
  some (g.edges.foldl (roi_step g activeName) ⟨[active], [], []⟩)

/-- A completed transition as `_change_state` receives it. -/
structure LiveTrans where
  source : Option String
  dest : String
  event : String
deriving DecidableEq, Repr

/-- A sequence of diagram updates on one model's graph. -/
def run_transitions (m : GM) (g : Graph) (ts : List LiveTrans) : Option Graph :=
  ts.foldlM (fun g t => change_state m g t.source t.dest t.event) g

/-- The resolved destination leaf name of a transition target. -/
def resolved_dest (m : GM) (destName : String) : Option String :=
  (m.get_state destName).map (fun s => (St.resolveLeaf s).name)

/-- An attribute dictionary shows a style when every binding of the style
is its current value. -/
def hasStyle (a : List (String × String)) (sty : List (String × String)) : Bool :=
  sty.all (fun p => attrFind a p.1 == some p.2)

/-- A node carries the active role: it shows the full active node style. -/
def isActiveNode (nd : Node) : Bool := hasStyle nd.attr (style_attributes_node Role.active)

/-- A node carries the previous role: it shows the full previous node style. -/
def isPreviousNode (nd : Node) : Bool := hasStyle nd.attr (style_attributes_node Role.previous)

/-- A node carries the default role. -/
def isDefaultNode (nd : Node) : Bool := hasStyle nd.attr (style_attributes_node Role.default)

/-- Number of nodes carrying the active role. -/
def activeCount (g : Graph) : Nat := g.nodes.countP (fun nd => isActiveNode nd)

/-- An edge shows the previous edge style. -/
def isPreviousEdge (e : Edge) : Bool := hasStyle e.attr [("color", "blue")]

/-- An edge shows the default edge style. -/
def isDefaultEdge (e : Edge) : Bool := hasStyle e.attr [("color", "black")]

/-- Labels joined the way the spec words it for merged edges. -/
def joinBar : List String → String
  | [] => ""
  | [l] => l
  | l :: l2 :: ls => l ++ " | " ++ joinBar (l2 :: ls)

/-- The edges of a graph for one resolved pair. -/
def edgesFor (g : Graph) (s d : String) : List Edge :=
  g.edges.filter (fun e => e.src == s && e.dst == d)

/-- The labels of the resolved edge records of one pair, in definition
order. -/
def labelsFor (s d : String) (rs : List ERec) : List String :=
  (rs.filter (fun r => r.src == s && r.dst == d)).map ERec.label

/-- First-occurrence insertion, collecting the distinct resolved pairs in
definition order. -/
def insertIfNew (ps : List (String × String)) (p : String × String) : List (String × String) :=
  if p ∈ ps then ps else ps ++ [p]

/-- The distinct resolved pairs of a record list, first occurrences first. -/
def distinctPairs (rs : List ERec) : List (String × String) :=
  rs.foldl (fun ps r => insertIfNew ps (r.src, r.dst)) []

/-- The edge update step exactly as the sentence behind claim C2 words it:
reset all edges to default, look up the edge, lazily create it only when
auto-transition display is enabled and it is missing, apply the previous
role to it, and update its label to the firing event name. -/
def set_edge_state_claimC2 (show_auto : Bool) (g : Graph) (edge_from edge_to : String)
    (label : Option String) : Option Graph :=
  let g0 := reset_edges g
  let g1 := if show_auto && !(g0.has_edge edge_from edge_to) then
              g0.add_edge edge_from edge_to
                (match label with | some l => [("label", l)] | none => [])
            else g0
  if g1.has_edge edge_from edge_to then
    (set_edge_style_on g1 edge_from edge_to Role.previous).map (fun g2 =>
      { g2 with edges := (updateFirst (fun e => e.src == edge_from && e.dst == edge_to)
          (fun e => { e with attr := attrSet e.attr "label" (label.getD "") }) g2.edges) })
  else none

/-- Pair key of an edge. -/
def pairKey (e : Edge) : String × String := (e.src, e.dst)

/-- Example leaf states. -/
def stA : St := .mk "A" []
def stB : St := .mk "B" []
def stC : St := .mk "C" []
def stD : St := .mk "D" []
def stPc : St := .mk "Pc" []

/-- Example composite state with the single child `Pc`. -/
def stP : St := .mk "P" [stPc]

/-- The scenario machine of the spec: plain states A, B, C and one event
`go` with A to B and B to C. -/
def mFlat : GM :=
  { states := [("A", stA), ("B", stB), ("C", stC)],
    events := [⟨"go", [("A", [⟨"B", []⟩]), ("B", [⟨"C", []⟩])]⟩],
    show_auto_transitions := false, show_conditions := false,
    initial := "A", models := [] }

/-- Two states with two events sharing the resolved pair (A, B): the built
graph carries one merged edge. -/
def mC2 : GM :=
  { states := [("A", stA), ("B", stB)],
    events := [⟨"go", [("A", [⟨"B", []⟩])]⟩, ⟨"back", [("A", [⟨"B", []⟩])]⟩],
    show_auto_transitions := false, show_conditions := false,
    initial := "A", models := [] }

/-- A machine with a composite source: event `e` goes from the composite P
(child Pc) to the leaf A. -/
def mC3 : GM :=
  { states := [("A", stA), ("P", stP), ("Pc", stPc)],
    events := [⟨"e", [("P", [⟨"A", []⟩])]⟩],
    show_auto_transitions := false, show_conditions := false,
    initial := "Pc", models := [] }

/-- Two transitions resolving to the pair (Pc, Pc): `e1` from P to Pc is
the degenerate parent-to-first-child edge, `e2` is a real self loop. -/
def mC4 : GM :=
  { states := [("P", stP), ("Pc", stPc)],
    events := [⟨"e1", [("P", [⟨"Pc", []⟩])]⟩, ⟨"e2", [("Pc", [⟨"Pc", []⟩])]⟩],
    show_auto_transitions := false, show_conditions := false,
    initial := "Pc", models := [] }

/-- Three states (one composite) and one blanket auto event `to_A` with one
transition entry per state. -/
def mC5 (show_auto : Bool) : GM :=
  { states := [("A", stA), ("P", stP), ("Pc", stPc)],
    events := [⟨"to_A", [("A", [⟨"A", []⟩]), ("P", [⟨"A", []⟩]), ("Pc", [⟨"A", []⟩])]⟩],
    show_auto_transitions := show_auto, show_conditions := false,
    initial := "A", models := [] }

/-- The scenario machine with one bound model resting on state A. -/
def mOwn : GM :=
  { mFlat with models := [⟨"A", none, false⟩] }

/-- The empty abstract graph. -/
def emptyGraph : Graph := ⟨[], [], []⟩

/-- The built scenario graph with A marked active. -/
def gFlatA : Graph := (build_model_graph mFlat "A").getD emptyGraph

/-- Firing `go` twice: A to B, then B to C. -/
def c1Ts : List LiveTrans := [⟨some "A", "B", "go"⟩, ⟨some "B", "C", "go"⟩]

/-- A small handmade graph with a bespoke node attribute (shape hexagon)
used to exercise the style merge frame. -/
def g8w : Graph :=
  ⟨[⟨"A", [("shape", "hexagon"), ("zz", "1")]⟩], [⟨"A", "B", [("label", "x")]⟩], []⟩

/-- The machine after adding state D to the one-model scenario machine. -/
def m7s : GM := (gm_add_states mOwn [("D", stD)]).getD mOwn

/-- The machine after adding a transition C to A under event go to the
one-model scenario machine. -/
def m7t : GM := (gm_add_transition mOwn "go" "C" ⟨"A", []⟩).getD mOwn

/-- Result of the pseudo-transition update (no source) into B on the
scenario graph. -/
def g10 : Graph := (change_state mFlat gFlatA none "B" "go").getD emptyGraph

/-- Result of firing go from A to B on the scenario graph. -/
def gAB : Graph := (change_state mFlat gFlatA (some "A") "B" "go").getD emptyGraph

/-- The ROI of the scenario graph around B after firing go from A. -/
def gROI : Graph := (graph_roi gAB "B").getD emptyGraph

/-- The built graph of the merged-edge machine with A active. -/
def gC2 : Graph := (build_model_graph mC2 "A").getD emptyGraph

/-- Result of firing go over the merged edge. -/
def gC2go : Graph := (change_state mC2 gC2 (some "A") "B" "go").getD emptyGraph

/-- Result of firing ev1 from B to A, whose edge is absent at build time. -/
def gC2ev : Graph := (change_state mC2 gC2 (some "B") "A" "ev1").getD emptyGraph

/-- The built graph of the composite-source machine with Pc active. -/
def gC3 : Graph := (build_model_graph mC3 "Pc").getD emptyGraph

/-- Result of firing e from the composite P to A. -/
def gC3e : Graph := (change_state mC3 gC3 (some "P") "A" "e").getD emptyGraph

/-- Result of running the two scenario transitions from the built graph. -/
def gC1 : Graph := (run_transitions mFlat gFlatA c1Ts).getD emptyGraph

/-- The label after a sequence of merge steps: each later label is appended
to the running label joined by a bar. -/
def labelAfter (c : String) (ls : List String) : String :=
  ls.foldl (fun a l => a ++ " | " ++ l) c

/-- The edge after a sequence of merge steps for its pair. -/
def mergeLabels (e : Edge) (ls : List String) : Edge :=
  ls.foldl (fun e l => appendEdgeLabel l e) e

/-- The resolved edge records of the merged-edge machine. -/
def rsC2 : List ERec := (edgeRecs mC2).getD []

/-- The built (style-free) graph of the merged-edge machine. -/
def gC2raw : Graph := (agraph_get_graph mC2).getD emptyGraph

/-- The built graph of the degenerate-pair machine. -/
def gC4 : Graph := (agraph_get_graph mC4).getD emptyGraph

/-- The resolved edge records of the blanket-event machine, suppressed. -/
def rsC5f : List ERec := (edgeRecs (mC5 false)).getD []

/-- The built graph of the blanket-event machine, suppressed. -/
def gC5f : Graph := (agraph_get_graph (mC5 false)).getD emptyGraph

/-- The resolved edge records of the blanket-event machine, displayed. -/
def rsC5t : List ERec := (edgeRecs (mC5 true)).getD []

/-- The built graph of the blanket-event machine, displayed. -/
def gC5t : Graph := (agraph_get_graph (mC5 true)).getD emptyGraph

/-- The inclusion test of the ROI loop: an edge is kept when it leaves the
active node, or enters it from a node showing the previous fillcolor. -/
def roiCond (g : Graph) (a : String) (e : Edge) : Bool :=
  e.src == a || (e.dst == a && node_fillcolor g e.src == "azure2")

/-- Result of a completed source-less pseudo-transition into the composite
P on the built composite-source graph. -/
def gC1none : Graph := (change_state mC3 gC3 none "P" "e").getD emptyGraph

/-!
All definitions are above this line; the development below only states and
proves properties about them.
-/

theorem attrFind_attrSet_self (a : List (String × String)) (k v : String) :
    attrFind (attrSet a k v) k = some v := by
  induction a with
  | nil => simp [attrSet, attrFind]
  | cons p rest ih =>
      cases hp : (p.1 == k) with
      | true => simp [attrSet, hp, attrFind]
      | false => simp [attrSet, hp, attrFind, ih]

theorem attrFind_attrSet_ne (a : List (String × String)) (k v k2 : String)
    (h : k2 ≠ k) : attrFind (attrSet a k v) k2 = attrFind a k2 := by
  induction a with
  | nil =>
      simp [attrSet, attrFind, beq_iff_eq]
      exact fun hh => absurd hh (Ne.symm h)
  | cons p rest ih =>
      cases hp : (p.1 == k) with
      | true =>
          have hp1 : p.1 = k := by simpa [beq_iff_eq] using hp
          simp [attrSet, hp, attrFind, beq_iff_eq, hp1, Ne.symm h]
      | false => simp [attrSet, hp, attrFind, ih]

theorem attrFind_attrSet_isSome (a : List (String × String)) (k v k2 : String)
    (h : (attrFind a k2).isSome = true) :
    (attrFind (attrSet a k v) k2).isSome = true := by
  by_cases hk : k2 = k
  · subst hk; simp [attrFind_attrSet_self]
  · rw [attrFind_attrSet_ne a k v k2 hk]; exact h

theorem attrUpdate_nil (a : List (String × String)) : attrUpdate a [] = a := rfl

theorem attrUpdate_cons (a : List (String × String)) (p : String × String)
    (rest : List (String × String)) :
    attrUpdate a (p :: rest) = attrUpdate (attrSet a p.1 p.2) rest := rfl

theorem attrFind_attrUpdate_not_mem (patch : List (String × String)) :
    ∀ (a : List (String × String)) (k : String), k ∉ attrKeys patch →
    attrFind (attrUpdate a patch) k = attrFind a k := by
  induction patch with
  | nil => intro a k _; rfl
  | cons p rest ih =>
      intro a k hk
      have hk1 : k ≠ p.1 := by
        intro hh; exact hk (by simp [attrKeys, hh])
      have hk2 : k ∉ attrKeys rest := by
        intro hh; exact hk (by simp [attrKeys] at hh ⊢; exact Or.inr hh)
      rw [attrUpdate_cons, ih _ k hk2, attrFind_attrSet_ne _ _ _ _ hk1]

theorem attrFind_attrUpdate_mem (patch : List (String × String)) :
    ∀ (a : List (String × String)) (k v : String), (attrKeys patch).Nodup →
    (k, v) ∈ patch → attrFind (attrUpdate a patch) k = some v := by
  induction patch with
  | nil => intro a k v _ hm; cases hm
  | cons p rest ih =>
      intro a k v hnd hm
      have hndc : (p.1 :: attrKeys rest).Nodup := hnd
      have hnd1 : p.1 ∉ attrKeys rest := (List.nodup_cons.mp hndc).1
      have hnd2 : (attrKeys rest).Nodup := (List.nodup_cons.mp hndc).2
      rw [List.mem_cons] at hm
      rcases hm with hm | hm
      · rw [attrUpdate_cons]
        have hke : k ∉ attrKeys rest := by
          have hk1 : p.1 = k := by rw [← hm]
          rwa [hk1] at hnd1
        rw [attrFind_attrUpdate_not_mem rest _ k hke]
        have hk1 : p.1 = k := by rw [← hm]
        have hk2 : p.2 = v := by rw [← hm]
        rw [hk1, hk2]
        exact attrFind_attrSet_self a k v
      · rw [attrUpdate_cons]
        exact ih _ k v hnd2 hm

theorem attrFind_attrUpdate_isSome (patch : List (String × String)) :
    ∀ (a : List (String × String)) (k : String), (attrFind a k).isSome = true →
    (attrFind (attrUpdate a patch) k).isSome = true := by
  induction patch with
  | nil => intro a k h; exact h
  | cons p rest ih =>
      intro a k h
      rw [attrUpdate_cons]
      exact ih _ k (attrFind_attrSet_isSome a p.1 p.2 k h)

theorem attrSet_of_find_eq (a : List (String × String)) (k v : String)
    (h : attrFind a k = some v) : attrSet a k v = a := by
  induction a with
  | nil => simp [attrFind] at h
  | cons p rest ih =>
      cases hp : (p.1 == k) with
      | true =>
          have hp1 : p.1 = k := by simpa [beq_iff_eq] using hp
          have hv : p.2 = v := by
            have := h
            simp [attrFind, hp] at this
            exact this
          cases p with
          | mk p1 p2 =>
              simp only at hp1 hv
              simp [attrSet, hp, hp1, hv]
      | false =>
          have hfind : attrFind rest k = some v := by
            simpa [attrFind, hp] using h
          simp [attrSet, hp, ih hfind]

theorem attrUpdate_of_finds (b : List (String × String)) :
    ∀ (a : List (String × String)), (∀ p ∈ b, attrFind a p.1 = some p.2) →
    attrUpdate a b = a := by
  induction b with
  | nil => intro a _; rfl
  | cons p rest ih =>
      intro a h
      rw [attrUpdate_cons, attrSet_of_find_eq a p.1 p.2 (h p (by simp))]
      exact ih a (fun q hq => h q (by simp [hq]))

theorem attrFind_of_mem_nodup (a : List (String × String)) (k v : String)
    (hnd : (attrKeys a).Nodup) (hm : (k, v) ∈ a) : attrFind a k = some v := by
  induction a with
  | nil => cases hm
  | cons p rest ih =>
      have hndc : (p.1 :: attrKeys rest).Nodup := hnd
      have hnd1 : p.1 ∉ attrKeys rest := (List.nodup_cons.mp hndc).1
      have hnd2 : (attrKeys rest).Nodup := (List.nodup_cons.mp hndc).2
      rw [List.mem_cons] at hm
      rcases hm with hm | hm
      · rw [← hm]
        simp [attrFind]
      · have hne : p.1 ≠ k := by
          intro hh
          have hmk : k ∈ attrKeys rest := by
            have := List.mem_map_of_mem Prod.fst hm
            simpa [attrKeys] using this
          rw [hh] at hnd1
          exact hnd1 hmk
        simp [attrFind, hne, ih hnd2 hm]

theorem attrUpdate_self (a : List (String × String)) (hnd : (attrKeys a).Nodup) :
    attrUpdate a a = a :=
  attrUpdate_of_finds a a (fun p hp => attrFind_of_mem_nodup a p.1 p.2 hnd hp)

theorem hasStyle_iff (a s : List (String × String)) :
    hasStyle a s = true ↔ ∀ p ∈ s, attrFind a p.1 = some p.2 := by
  simp [hasStyle, List.all_eq_true]

theorem hasStyle_attrUpdate_self (a s : List (String × String))
    (hnd : (attrKeys s).Nodup) : hasStyle (attrUpdate a s) s = true := by
  rw [hasStyle_iff]
  intro p hp
  exact attrFind_attrUpdate_mem s a p.1 p.2 hnd hp

theorem find?_map_pres {α : Type} (f : α → α) (p : α → Bool) (h : ∀ x, p (f x) = p x) :
    ∀ l : List α, (l.map f).find? p = (l.find? p).map f := by
  intro l
  induction l with
  | nil => rfl
  | cons x xs ih =>
      cases hp : p x with
      | true => simp [List.find?, h x, hp]
      | false => simp [List.find?, h x, hp, ih]

theorem get_node_set_node_style (g : Graph) (n nq : String) (r : Role) :
    (set_node_style g n r).get_node nq =
      (g.get_node nq).map (fun nd =>
        if nd.name == n then { nd with attr := attrUpdate nd.attr (style_attributes_node r) }
        else nd) := by
  unfold set_node_style Graph.get_node
  exact find?_map_pres _ _ (fun x => by by_cases h : x.name == n <;> simp [h]) g.nodes

theorem node_attr_lookup_set_node_style_not_mem (g : Graph) (n nq k : String) (r : Role)
    (hk : k ∉ attrKeys (style_attributes_node r)) :
    node_attr_lookup (set_node_style g n r) nq k = node_attr_lookup g nq k := by
  unfold node_attr_lookup
  rw [get_node_set_node_style]
  cases hgn : g.get_node nq with
  | none => rfl
  | some nd =>
      by_cases h : nd.name = n
      · simp [h, attrFind_attrUpdate_not_mem _ _ _ hk]
      · simp [h]

theorem node_attr_lookup_set_node_style_isSome (g : Graph) (n nq k : String) (r : Role)
    (h : (node_attr_lookup g nq k).isSome = true) :
    (node_attr_lookup (set_node_style g n r) nq k).isSome = true := by
  unfold node_attr_lookup at h ⊢
  rw [get_node_set_node_style]
  cases hgn : g.get_node nq with
  | none => rw [hgn] at h; simp at h
  | some nd =>
      rw [hgn] at h
      have h2 : (attrFind nd.attr k).isSome = true := h
      by_cases hn : nd.name = n
      · simp [hn, attrFind_attrUpdate_isSome _ _ _ h2]
      · simpa [hn] using h2

theorem find?_updateFirst {α : Type} (p : α → Bool) (f : α → α)
    (h : ∀ x, p x = true → p (f x) = true) :
    ∀ l : List α, (updateFirst p f l).find? p = (l.find? p).map f := by
  intro l
  induction l with
  | nil => rfl
  | cons x xs ih =>
      cases hp : p x with
      | true => simp [updateFirst, hp, List.find?, h x hp]
      | false => simp [updateFirst, hp, List.find?, ih]

theorem get_edge_set_edge_style_on (g : Graph) (s d : String) (r : Role)
    (sa : List (String × String)) (ge : Graph)
    (hre : style_attributes_edge r = some sa)
    (hg : set_edge_style_on g s d r = some ge) :
    ge.get_edge s d = (g.get_edge s d).map (fun e => { e with attr := attrUpdate e.attr sa }) := by
  unfold set_edge_style_on at hg
  rw [hre] at hg
  have hg2 : ({ g with edges := (updateFirst (fun e => e.src == s && e.dst == d)
      (fun e => { e with attr := attrUpdate e.attr sa }) g.edges) } : Graph) = ge :=
    Option.some.inj hg
  subst hg2
  unfold Graph.get_edge
  exact find?_updateFirst _ _ (fun e he => by simpa using he) g.edges

theorem edge_attr_lookup_frame (g : Graph) (s d : String) (r : Role)
    (sa : List (String × String)) (ge : Graph) (k : String)
    (hre : style_attributes_edge r = some sa)
    (hg : set_edge_style_on g s d r = some ge)
    (hk : k ∉ attrKeys sa) :
    edge_attr_lookup ge s d k = edge_attr_lookup g s d k := by
  unfold edge_attr_lookup
  rw [get_edge_set_edge_style_on g s d r sa ge hre hg]
  cases hge : g.get_edge s d with
  | none => rfl
  | some e => simp [attrFind_attrUpdate_not_mem _ _ _ hk]

theorem edge_attr_lookup_isSome (g : Graph) (s d : String) (r : Role)
    (sa : List (String × String)) (ge : Graph) (k : String)
    (hre : style_attributes_edge r = some sa)
    (hg : set_edge_style_on g s d r = some ge)
    (h : (edge_attr_lookup g s d k).isSome = true) :
    (edge_attr_lookup ge s d k).isSome = true := by
  unfold edge_attr_lookup at h ⊢
  rw [get_edge_set_edge_style_on g s d r sa ge hre hg]
  cases hge : g.get_edge s d with
  | none => rw [hge] at h; simp at h
  | some e =>
      rw [hge] at h
      have h2 : (attrFind e.attr k).isSome = true := h
      simpa using attrFind_attrUpdate_isSome sa _ _ h2

/-- C8: applying a role style to a node or edge merges only the keys of the
role's attribute dictionary: any key not mentioned by the (later) role keeps
its prior value, across single and successive applications, and no present
attribute is ever removed. -/
theorem C8_style_merge_keeps_unmentioned (g : Graph) (n nq s d kn ke : String)
    (r r2 re1 re2 : Role) (sa1 sa2 : List (String × String))
    (hkn : kn ∉ attrKeys (style_attributes_node r2))
    (hre1 : style_attributes_edge re1 = some sa1)
    (hre2 : style_attributes_edge re2 = some sa2)
    (hke : ke ∉ attrKeys sa2) :
    (node_attr_lookup (set_node_style g n r2) nq kn = node_attr_lookup g nq kn)
    ∧ (node_attr_lookup (set_node_style (set_node_style g n r) n r2) nq kn
        = node_attr_lookup (set_node_style g n r) nq kn)
    ∧ (∀ k0, (node_attr_lookup g nq k0).isSome = true →
        (node_attr_lookup (set_node_style g n r2) nq k0).isSome = true)
    ∧ (∀ ge, set_edge_style_on g s d re2 = some ge →
        edge_attr_lookup ge s d ke = edge_attr_lookup g s d ke
        ∧ ∀ k0, (edge_attr_lookup g s d k0).isSome = true →
            (edge_attr_lookup ge s d k0).isSome = true)
    ∧ (∀ g1 ge, set_edge_style_on g s d re1 = some g1 →
        set_edge_style_on g1 s d re2 = some ge →
        edge_attr_lookup ge s d ke = edge_attr_lookup g1 s d ke) := by
  refine ⟨?_, ?_, ?_, ?_, ?_⟩
  · exact node_attr_lookup_set_node_style_not_mem g n nq kn r2 hkn
  · exact node_attr_lookup_set_node_style_not_mem _ n nq kn r2 hkn
  · intro k0 h; exact node_attr_lookup_set_node_style_isSome g n nq k0 r2 h
  · intro ge hge
    exact ⟨edge_attr_lookup_frame g s d re2 sa2 ge ke hre2 hge hke,
      fun k0 h => edge_attr_lookup_isSome g s d re2 sa2 ge k0 hre2 hge h⟩
  · intro g1 ge hg1 hge
    exact edge_attr_lookup_frame g1 s d re2 sa2 ge ke hre2 hge hke

/-- Witness for C8 at a concrete graph: the bespoke shape attribute of node
A survives applying active then previous, and an edge label survives the
default then previous edge styling. -/
theorem C8_witness :
    ("shape" ∉ attrKeys (style_attributes_node Role.previous))
    ∧ (style_attributes_edge Role.default = some [("color", "black")])
    ∧ (style_attributes_edge Role.previous = some [("color", "blue")])
    ∧ ("label" ∉ attrKeys [("color", "blue")])
    ∧ ((node_attr_lookup (set_node_style g8w "A" Role.previous) "A" "shape"
          = node_attr_lookup g8w "A" "shape")
      ∧ (node_attr_lookup (set_node_style (set_node_style g8w "A" Role.active) "A" Role.previous) "A" "shape"
          = node_attr_lookup (set_node_style g8w "A" Role.active) "A" "shape")
      ∧ (∀ k0, (node_attr_lookup g8w "A" k0).isSome = true →
          (node_attr_lookup (set_node_style g8w "A" Role.previous) "A" k0).isSome = true)
      ∧ (∀ ge, set_edge_style_on g8w "A" "B" Role.previous = some ge →
          edge_attr_lookup ge "A" "B" "label" = edge_attr_lookup g8w "A" "B" "label"
          ∧ ∀ k0, (edge_attr_lookup g8w "A" "B" k0).isSome = true →
              (edge_attr_lookup ge "A" "B" k0).isSome = true)
      ∧ (∀ g1 ge, set_edge_style_on g8w "A" "B" Role.default = some g1 →
          set_edge_style_on g1 "A" "B" Role.previous = some ge →
          edge_attr_lookup ge "A" "B" "label" = edge_attr_lookup g1 "A" "B" "label")) :=
  ⟨by decide, rfl, rfl, by decide,
   C8_style_merge_keeps_unmentioned g8w "A" "A" "A" "B" "shape" "label"
     Role.active Role.previous Role.default Role.previous
     [("color", "black")] [("color", "blue")] (by decide) rfl rfl (by decide)⟩

theorem bind_models_error (m : GM) :
    ∀ (mods : List Model) (mod : Model), mod ∈ mods → mod.hasGetGraph = true →
    ∃ e, bind_models m mods = .error e := by
  intro mods
  induction mods with
  | nil => intro mod hm; cases hm
  | cons m0 rest ih =>
      intro mod hm hg
      by_cases h0 : m0.hasGetGraph = true
      · exact ⟨"Model already has a get_graph attribute. Graph retrieval cannot be bound.",
          by simp [bind_models, h0]⟩
      · rw [List.mem_cons] at hm
        rcases hm with hm | hm
        · rw [hm] at hg; exact absurd hg h0
        · obtain ⟨e, he⟩ := ih mod hm hg
          have h0f : m0.hasGetGraph = false := by simpa using h0
          cases hb : build_model_graph m m.initial with
          | none => exact ⟨"KeyError", by simp [bind_models, h0f, hb]⟩
          | some g =>
              cases hs : set_node_state g m.initial Role.active with
              | none => exact ⟨"KeyError", by simp [bind_models, h0f, hb, hs]⟩
              | some g2 => exact ⟨e, by simp [bind_models, h0f, hb, hs, he, Except.map]⟩

/-- C9: a model that already exposes a `get_graph` attribute makes
construction fail immediately with an error (the AttributeError of
diagrams.py line 191); when it is the first model, the error is exactly
that message, so the binding is neither overwritten nor skipped. -/
theorem C9_conflicting_accessor_fatal (states : List (String × St)) (events : List Event)
    (sa sc : Bool) (ini : String) (models : List Model) (mod : Model)
    (hm : mod ∈ models) (hg : mod.hasGetGraph = true) :
    (∃ e, graph_machine_init states events sa sc ini models = .error e)
    ∧ (∀ rest, models = mod :: rest →
        graph_machine_init states events sa sc ini models =
          .error "Model already has a get_graph attribute. Graph retrieval cannot be bound.") := by
  obtain ⟨e, he⟩ := bind_models_error
    { states := states, events := events, show_auto_transitions := sa,
      show_conditions := sc, initial := ini, models := [] } models mod hm hg
  constructor
  · exact ⟨e, by simp [graph_machine_init, he, Except.map]⟩
  · intro rest hrest
    subst hrest
    simp [graph_machine_init, bind_models, hg, Except.map]

/-- Witness for C9: one bound model carrying a prior `get_graph` attribute
aborts construction with the AttributeError message. -/
theorem C9_witness :
    ((⟨"A", none, true⟩ : Model) ∈ [(⟨"A", none, true⟩ : Model)]
      ∧ (⟨"A", none, true⟩ : Model).hasGetGraph = true)
    ∧ ((∃ e, graph_machine_init [("A", stA)] [] false false "A"
          [⟨"A", none, true⟩] = .error e)
      ∧ (∀ rest, [(⟨"A", none, true⟩ : Model)] = ⟨"A", none, true⟩ :: rest →
          graph_machine_init [("A", stA)] [] false false "A" [⟨"A", none, true⟩] =
            .error "Model already has a get_graph attribute. Graph retrieval cannot be bound.")) :=
  ⟨⟨by simp, rfl⟩,
   C9_conflicting_accessor_fatal [("A", stA)] [] false false "A"
     [⟨"A", none, true⟩] ⟨"A", none, true⟩ (by simp) rfl⟩

theorem models_rebuild_mem (m : GM) :
    ∀ (mods mods2 : List Model), models_rebuild m mods = some mods2 →
    ∀ mod2 ∈ mods2, ∃ g, build_model_graph m mod2.state = some g ∧ mod2.graph = some g := by
  intro mods
  induction mods with
  | nil =>
      intro mods2 h mod2 hm2
      simp [models_rebuild] at h
      subst h
      cases hm2
  | cons mod rest ih =>
      intro mods2 h mod2 hm2
      simp only [models_rebuild] at h
      cases hb : build_model_graph m mod.state with
      | none =>
          rw [show get_graph_model m mod true =
              (build_model_graph m mod.state).map (fun g => ({ mod with graph := some g }, g))
            from by cases hmg : mod.graph <;> simp [get_graph_model, hmg]] at h
          rw [hb] at h
          simp at h
      | some g =>
          rw [show get_graph_model m mod true =
              (build_model_graph m mod.state).map (fun g => ({ mod with graph := some g }, g))
            from by cases hmg : mod.graph <;> simp [get_graph_model, hmg]] at h
          rw [hb] at h
          cases hr : models_rebuild m rest with
          | none => rw [hr] at h; simp at h
          | some rest1 =>
              rw [hr] at h
              have h2 : ({ mod with graph := some g } : Model) :: rest1 = mods2 :=
                Option.some.inj h
              subst h2
              rw [List.mem_cons] at hm2
              rcases hm2 with hm2 | hm2
              · subst hm2
                exact ⟨g, by simpa using hb, rfl⟩
              · exact ih rest1 hr mod2 hm2

theorem build_model_graph_models_irrel (m : GM) (ms : List Model) (st : String) :
    build_model_graph { m with models := ms } st = build_model_graph m st := rfl

theorem rebuild_serves_fresh (mc : GM) (ms : List Model)
    (hrb : models_rebuild mc mc.models = some ms) :
    ∀ mod ∈ ms, mod.graph = build_model_graph { mc with models := ms } mod.state
      ∧ get_graph_model { mc with models := ms } mod false =
          (build_model_graph { mc with models := ms } mod.state).map (fun g => (mod, g)) := by
  intro mod hm
  obtain ⟨g, hb, hg⟩ := models_rebuild_mem mc mc.models ms hrb mod hm
  have hb2 : build_model_graph { mc with models := ms } mod.state = some g := hb
  exact ⟨by rw [hg, hb2], by simp [get_graph_model, hg, hb2]⟩

/-- C7: after `add_states` or `add_transition`, every bound model's cached
graph equals a fresh build of the changed machine, and `get_graph` without
`force_new` serves exactly that fresh projection, never a stale one. -/
theorem C7_rebuild_on_structural_change (m : GM) (new : List (String × St))
    (trigger srcName : String) (t : TransDef) (m1 m2 : GM)
    (h1 : gm_add_states m new = some m1)
    (h2 : gm_add_transition m trigger srcName t = some m2) :
    (∀ mod ∈ m1.models, mod.graph = build_model_graph m1 mod.state
      ∧ get_graph_model m1 mod false =
          (build_model_graph m1 mod.state).map (fun g => (mod, g)))
    ∧ (∀ mod ∈ m2.models, mod.graph = build_model_graph m2 mod.state
      ∧ get_graph_model m2 mod false =
          (build_model_graph m2 mod.state).map (fun g => (mod, g))) := by
  constructor
  · simp only [gm_add_states] at h1
    cases hr : models_rebuild (core_add_states m new) (core_add_states m new).models with
    | none => rw [hr] at h1; simp at h1
    | some ms =>
        rw [hr] at h1
        have hm1 : ({ core_add_states m new with models := ms } : GM) = m1 :=
          Option.some.inj h1
        subst hm1
        exact rebuild_serves_fresh (core_add_states m new) ms hr
  · simp only [gm_add_transition] at h2
    cases hr : models_rebuild (core_add_transition m trigger srcName t)
        (core_add_transition m trigger srcName t).models with
    | none => rw [hr] at h2; simp at h2
    | some ms =>
        rw [hr] at h2
        have hm2 : ({ core_add_transition m trigger srcName t with models := ms } : GM) = m2 :=
          Option.some.inj h2
        subst hm2
        exact rebuild_serves_fresh (core_add_transition m trigger srcName t) ms hr

/-- Witness for C7: adding state D (and a transition C to A) to the bound
scenario machine rebuilds the single model's diagram to the new machine's
fresh projection. -/
theorem C7_witness :
    (gm_add_states mOwn [("D", stD)] = some m7s
      ∧ gm_add_transition mOwn "go" "C" ⟨"A", []⟩ = some m7t)
    ∧ ((∀ mod ∈ m7s.models, mod.graph = build_model_graph m7s mod.state
        ∧ get_graph_model m7s mod false =
            (build_model_graph m7s mod.state).map (fun g => (mod, g)))
      ∧ (∀ mod ∈ m7t.models, mod.graph = build_model_graph m7t mod.state
        ∧ get_graph_model m7t mod false =
            (build_model_graph m7t mod.state).map (fun g => (mod, g)))) :=
  ⟨⟨by decide, by decide⟩,
   C7_rebuild_on_structural_change mOwn [("D", stD)] "go" "C" ⟨"A", []⟩ m7s m7t
     (by decide) (by decide)⟩

theorem any_map_pres {α : Type} (f : α → α) (p : α → Bool) (h : ∀ x, p (f x) = p x) :
    ∀ l : List α, (l.map f).any p = l.any p := by
  intro l
  induction l with
  | nil => rfl
  | cons x xs ih => simp [List.any, h x, ih]

theorem has_node_reset_nodes (g : Graph) (n : String) :
    (reset_nodes g).has_node n = g.has_node n := by
  unfold reset_nodes Graph.has_node
  exact any_map_pres
    (fun nd => { nd with attr := attrUpdate nd.attr (style_attributes_node Role.default) })
    (fun nd => nd.name == n) (fun nd => rfl) g.nodes

theorem hasStyle_fillcolor (a sty : List (String × String)) (c : String)
    (hs : hasStyle a sty = true) (hm : ("fillcolor", c) ∈ sty) :
    attrFind a "fillcolor" = some c :=
  (hasStyle_iff a sty).mp hs ("fillcolor", c) hm

theorem isPreviousNode_false_of_fillcolor (nd : Node) (c : String)
    (hc : attrFind nd.attr "fillcolor" = some c) (hne : c ≠ "azure2") :
    isPreviousNode nd = false := by
  cases hps : isPreviousNode nd with
  | false => rfl
  | true =>
      have h2 := hasStyle_fillcolor nd.attr _ "azure2" hps (by decide)
      exact absurd (Option.some.inj (hc.symm.trans h2)) hne

theorem isActiveNode_false_of_fillcolor (nd : Node) (c : String)
    (hc : attrFind nd.attr "fillcolor" = some c) (hne : c ≠ "darksalmon") :
    isActiveNode nd = false := by
  cases hps : isActiveNode nd with
  | false => rfl
  | true =>
      have h2 := hasStyle_fillcolor nd.attr _ "darksalmon" hps (by decide)
      exact absurd (Option.some.inj (hc.symm.trans h2)) hne

theorem fillcolor_after_default (a : List (String × String)) :
    attrFind (attrUpdate a (style_attributes_node Role.default)) "fillcolor" = some "white" :=
  attrFind_attrUpdate_mem _ a _ _ (by decide) (by decide)

theorem fillcolor_after_active (a : List (String × String)) :
    attrFind (attrUpdate a (style_attributes_node Role.active)) "fillcolor" = some "darksalmon" :=
  attrFind_attrUpdate_mem _ a _ _ (by decide) (by decide)

theorem fillcolor_after_previous (a : List (String × String)) :
    attrFind (attrUpdate a (style_attributes_node Role.previous)) "fillcolor" = some "azure2" :=
  attrFind_attrUpdate_mem _ a _ _ (by decide) (by decide)

/-- C10: a transition without a source (initial-entry pseudo-transition)
resets every node style to default and applies the active role to the
destination as named (its node when that name is a node, its cluster
otherwise); no node is marked previous, and every edge's attribute
dictionary is left untouched (no edge reset occurs). -/
theorem C10_no_source_frame (m : GM) (g : Graph) (destName eventName : String)
    (dest : St) (g' : Graph)
    (hd : m.get_state destName = some dest)
    (h : change_state m g none destName eventName = some g') :
    g'.edges = g.edges
    ∧ (g.has_node dest.name = true →
        g'.nodes = g.nodes.map (fun nd =>
          (if nd.name == dest.name then
            { nd with attr := (attrUpdate (attrUpdate nd.attr (style_attributes_node Role.default))
                (style_attributes_node Role.active)) }
          else { nd with attr := attrUpdate nd.attr (style_attributes_node Role.default) }))
        ∧ g'.clusters = g.clusters)
    ∧ (g.has_node dest.name = false →
        g'.nodes = g.nodes.map (fun nd =>
          { nd with attr := attrUpdate nd.attr (style_attributes_node Role.default) })
        ∧ (g.clusters.any (fun c => c.1 == dest.name) = true →
            g'.clusters = g.clusters.map (fun c =>
              if c.1 == dest.name then (c.1, attrUpdate c.2 (style_attributes_node Role.active))
              else c)))
    ∧ (∀ nd ∈ g'.nodes, isPreviousNode nd = false) := by
  have h2 : set_node_state (reset_nodes g) dest.name Role.active = some g' := by
    have h3 := h
    unfold change_state at h3
    rw [hd] at h3
    exact h3
  unfold set_node_state at h2
  by_cases hn : (reset_nodes g).has_node dest.name = true
  · rw [if_pos hn] at h2
    have hg' : set_node_style (reset_nodes g) dest.name Role.active = g' :=
      Option.some.inj h2
    subst hg'
    have hgn : g.has_node dest.name = true := by rw [← has_node_reset_nodes]; exact hn
    refine ⟨rfl, ?_, ?_, ?_⟩
    · intro _
      refine ⟨?_, rfl⟩
      have hnodes : (set_node_style (reset_nodes g) dest.name Role.active).nodes
          = ((g.nodes.map (fun nd =>
              { nd with attr := attrUpdate nd.attr (style_attributes_node Role.default) })).map
             (fun nd => if nd.name == dest.name then
                { nd with attr := attrUpdate nd.attr (style_attributes_node Role.active) }
              else nd)) := rfl
      rw [hnodes, List.map_map]
      apply List.map_congr_left
      intro nd _
      by_cases hh : nd.name == dest.name
      · simp [Function.comp, hh]
      · simp [Function.comp, hh]
    · intro hf; rw [hgn] at hf; cases hf
    · intro nd hm
      have hnodes : (set_node_style (reset_nodes g) dest.name Role.active).nodes
          = ((g.nodes.map (fun nd =>
              { nd with attr := attrUpdate nd.attr (style_attributes_node Role.default) })).map
             (fun nd => if nd.name == dest.name then
                { nd with attr := attrUpdate nd.attr (style_attributes_node Role.active) }
              else nd)) := rfl
      rw [hnodes, List.map_map] at hm
      obtain ⟨nd0, _, rfl⟩ := List.mem_map.mp hm
      by_cases hh : nd0.name == dest.name
      · refine isPreviousNode_false_of_fillcolor _ "darksalmon" ?_ (by decide)
        simp [Function.comp, hh]
        exact fillcolor_after_active _
      · refine isPreviousNode_false_of_fillcolor _ "white" ?_ (by decide)
        simp [Function.comp, hh]
        exact fillcolor_after_default _
  · rw [if_neg hn] at h2
    have hgn : g.has_node dest.name = false := by
      rw [← has_node_reset_nodes]
      exact Bool.not_eq_true _ ▸ (by simpa using hn)
    by_cases hc : (reset_nodes g).clusters.any (fun c => c.1 == dest.name) = true
    · rw [if_pos hc] at h2
      have hg' : set_graph_style_cluster (reset_nodes g) dest.name Role.active = g' :=
        Option.some.inj h2
      subst hg'
      refine ⟨rfl, ?_, ?_, ?_⟩
      · intro ht; rw [hgn] at ht; cases ht
      · intro _
        exact ⟨rfl, fun _ => rfl⟩
      · intro nd hm
        obtain ⟨nd0, _, rfl⟩ := List.mem_map.mp hm
        exact isPreviousNode_false_of_fillcolor _ "white" (fillcolor_after_default _) (by decide)
    · rw [if_neg hc] at h2
      cases h2

/-- Witness for C10 at the scenario machine: the pseudo-transition into B
resets every node, marks B active, marks nothing previous and leaves the
edges untouched. -/
theorem C10_witness :
    (mFlat.get_state "B" = some stB
      ∧ change_state mFlat gFlatA none "B" "go" = some g10)
    ∧ (g10.edges = gFlatA.edges
      ∧ (gFlatA.has_node stB.name = true →
          g10.nodes = gFlatA.nodes.map (fun nd =>
            (if nd.name == stB.name then
              { nd with attr := (attrUpdate (attrUpdate nd.attr (style_attributes_node Role.default))
                  (style_attributes_node Role.active)) }
            else { nd with attr := attrUpdate nd.attr (style_attributes_node Role.default) }))
          ∧ g10.clusters = gFlatA.clusters)
      ∧ (gFlatA.has_node stB.name = false →
          g10.nodes = gFlatA.nodes.map (fun nd =>
            { nd with attr := attrUpdate nd.attr (style_attributes_node Role.default) })
          ∧ (gFlatA.clusters.any (fun c => c.1 == stB.name) = true →
              g10.clusters = gFlatA.clusters.map (fun c =>
                if c.1 == stB.name then (c.1, attrUpdate c.2 (style_attributes_node Role.active))
                else c)))
      ∧ (∀ nd ∈ g10.nodes, isPreviousNode nd = false)) :=
  ⟨⟨by decide, by decide⟩,
   C10_no_source_frame mFlat gFlatA "B" "go" stB g10 (by decide) (by decide)⟩

theorem has_node_iff_mem (g : Graph) (n : String) :
    g.has_node n = true ↔ n ∈ g.nodeNames := by
  unfold Graph.has_node Graph.nodeNames
  rw [List.any_eq_true]
  constructor
  · rintro ⟨nd, hnd, he⟩
    have : nd.name = n := by simpa [beq_iff_eq] using he
    exact this ▸ List.mem_map_of_mem Node.name hnd
  · intro hmem
    obtain ⟨nd, hnd, he⟩ := List.mem_map.mp hmem
    exact ⟨nd, hnd, by simp [beq_iff_eq, he]⟩

theorem set_node_state_cases (g : Graph) (n : String) (r : Role) (g' : Graph)
    (h : set_node_state g n r = some g') :
    (g.has_node n = true ∧ g' = set_node_style g n r)
    ∨ (g.has_node n = false ∧ g.clusters.any (fun c => c.1 == n) = true
        ∧ g' = set_graph_style_cluster g n r) := by
  unfold set_node_state at h
  by_cases hn : g.has_node n = true
  · rw [if_pos hn] at h
    exact Or.inl ⟨hn, (Option.some.inj h).symm⟩
  · rw [if_neg hn] at h
    have hnf : g.has_node n = false := by simpa using hn
    by_cases hc : g.clusters.any (fun c => c.1 == n) = true
    · rw [if_pos hc] at h
      exact Or.inr ⟨hnf, hc, (Option.some.inj h).symm⟩
    · rw [if_neg hc] at h
      cases h

theorem set_edge_style_on_frame (g : Graph) (s d : String) (r : Role) (ge : Graph)
    (h : set_edge_style_on g s d r = some ge) :
    ge.nodes = g.nodes ∧ ge.clusters = g.clusters := by
  unfold set_edge_style_on at h
  cases hr : style_attributes_edge r with
  | none => rw [hr] at h; cases h
  | some sa =>
      rw [hr] at h
      have h2 := Option.some.inj h
      rw [← h2]
      exact ⟨rfl, rfl⟩

theorem ensure_node_frame (g : Graph) (n : String) :
    ∃ ext : List Node, (g.ensure_node n).nodes = g.nodes ++ ext
      ∧ (∀ nd ∈ ext, nd.attr = style_attributes_node Role.default)
      ∧ (g.nodeNames.Nodup → (g.ensure_node n).nodeNames.Nodup)
      ∧ (g.ensure_node n).clusters = g.clusters
      ∧ (g.ensure_node n).edges = g.edges := by
  by_cases h : g.has_node n = true
  · refine ⟨[], ?_, by simp, ?_, ?_, ?_⟩ <;> simp [Graph.ensure_node, h]
  · have hf : g.has_node n = false := by simpa using h
    have hnm : n ∉ g.nodeNames := fun hc => by
      rw [(has_node_iff_mem g n).mpr hc] at hf; cases hf
    refine ⟨[⟨n, style_attributes_node Role.default⟩], ?_, by simp, ?_, ?_, ?_⟩
    · simp [Graph.ensure_node, hf]
    · intro hnd
      have : (g.ensure_node n).nodeNames = g.nodeNames ++ [n] := by
        simp [Graph.ensure_node, hf, Graph.nodeNames]
      rw [this]
      simp [List.nodup_append, hnd, hnm]
    · simp [Graph.ensure_node, hf]
    · simp [Graph.ensure_node, hf]

theorem add_edge_frame (g : Graph) (ef et : String) (attrs : List (String × String)) :
    ∃ ext : List Node, (g.add_edge ef et attrs).nodes = g.nodes ++ ext
      ∧ (∀ nd ∈ ext, nd.attr = style_attributes_node Role.default)
      ∧ (g.nodeNames.Nodup → (g.add_edge ef et attrs).nodeNames.Nodup)
      ∧ (g.add_edge ef et attrs).clusters = g.clusters
      ∧ (g.add_edge ef et attrs).edges = g.edges ++ [⟨ef, et, attrs⟩] := by
  obtain ⟨e1, hn1, hd1, hnd1, hc1, he1⟩ := ensure_node_frame g ef
  obtain ⟨e2, hn2, hd2, hnd2, hc2, he2⟩ := ensure_node_frame (g.ensure_node ef) et
  have hnodes : (g.add_edge ef et attrs).nodes = ((g.ensure_node ef).ensure_node et).nodes := rfl
  have hcl : (g.add_edge ef et attrs).clusters = ((g.ensure_node ef).ensure_node et).clusters := rfl
  have hed : (g.add_edge ef et attrs).edges = ((g.ensure_node ef).ensure_node et).edges ++ [⟨ef, et, attrs⟩] := rfl
  refine ⟨e1 ++ e2, ?_, ?_, ?_, ?_, ?_⟩
  · rw [hnodes, hn2, hn1, List.append_assoc]
  · intro nd hm
    rw [List.mem_append] at hm
    rcases hm with hm | hm
    · exact hd1 nd hm
    · exact hd2 nd hm
  · intro hnd
    have : (g.add_edge ef et attrs).nodeNames = ((g.ensure_node ef).ensure_node et).nodeNames := rfl
    rw [this]
    exact hnd2 (hnd1 hnd)
  · rw [hcl, hc2, hc1]
  · rw [hed, he2, he1]

theorem set_edge_state_aux_frame (g1 : Graph) (ef et : String) (st : Role) (g3 : Graph)
    (h : set_edge_state_aux g1 ef et st = some g3) :
    g3.nodes = g1.nodes ∧ g3.clusters = g1.clusters ∧ g1.has_edge ef et = true := by
  unfold set_edge_state_aux at h
  by_cases he : g1.has_edge ef et = true
  · rw [if_pos he] at h
    obtain ⟨hn, hc⟩ := set_edge_style_on_frame (reset_edges g1) ef et st g3 h
    exact ⟨hn, hc, he⟩
  · rw [if_neg he] at h
    cases h

theorem set_edge_state_frame (sa : Bool) (g : Graph) (ef et : String) (st : Role)
    (lbl : Option String) (g3 : Graph)
    (h : set_edge_state sa g ef et st lbl = some g3) :
    g3.clusters = g.clusters
    ∧ ∃ ext : List Node, g3.nodes = g.nodes ++ ext
        ∧ (∀ nd ∈ ext, nd.attr = style_attributes_node Role.default)
        ∧ (g.nodeNames.Nodup → g3.nodeNames.Nodup) := by
  unfold set_edge_state at h
  by_cases hcond : (!sa && !(g.has_edge ef et)) = true
  · rw [if_pos hcond] at h
    obtain ⟨hn, hc, _⟩ := set_edge_state_aux_frame _ ef et st g3 h
    obtain ⟨ext, hne, hdef, hnodup, hcl, _⟩ := add_edge_frame g ef et (labelAttr lbl)
    refine ⟨by rw [hc, hcl], ext, by rw [hn, hne], hdef, ?_⟩
    intro hnd
    have : g3.nodeNames = (g.add_edge ef et (labelAttr lbl)).nodeNames := by
      unfold Graph.nodeNames; rw [hn]
    rw [this]
    exact hnodup hnd
  · rw [if_neg hcond] at h
    obtain ⟨hn, hc, _⟩ := set_edge_state_aux_frame _ ef et st g3 h
    refine ⟨hc, [], by simpa using hn, by simp, ?_⟩
    intro hnd
    have : g3.nodeNames = g.nodeNames := by unfold Graph.nodeNames; rw [hn]
    rw [this]; exact hnd

theorem change_state_some_src (m : GM) (g : Graph) (s destName eventName : String)
    (g' : Graph) (h : change_state m g (some s) destName eventName = some g') :
    ∃ dest src g2 g3,
      m.get_state destName = some dest
      ∧ m.get_state s = some src
      ∧ set_node_state (reset_nodes g) src.name Role.previous = some g2
      ∧ set_edge_state m.show_auto_transitions g2 (St.resolveLeaf src).name
          (St.resolveLeaf dest).name Role.previous (some eventName) = some g3
      ∧ set_node_state g3 (St.resolveLeaf dest).name Role.active = some g' := by
  unfold change_state at h
  cases hd : m.get_state destName with
  | none => rw [hd] at h; cases h
  | some dest =>
      rw [hd] at h
      have h2 : (m.get_state s).bind (fun src =>
          (set_node_state (reset_nodes g) src.name Role.previous).bind (fun g2 =>
            (set_edge_state m.show_auto_transitions g2 (St.resolveLeaf src).name
                (St.resolveLeaf dest).name Role.previous (some eventName)).bind (fun g3 =>
              set_node_state g3 (St.resolveLeaf dest).name Role.active))) = some g' := h
      cases hs : m.get_state s with
      | none => rw [hs] at h2; cases h2
      | some src =>
          rw [hs] at h2
          have h3 : (set_node_state (reset_nodes g) src.name Role.previous).bind (fun g2 =>
              (set_edge_state m.show_auto_transitions g2 (St.resolveLeaf src).name
                  (St.resolveLeaf dest).name Role.previous (some eventName)).bind (fun g3 =>
                set_node_state g3 (St.resolveLeaf dest).name Role.active)) = some g' := h2
          cases hp : set_node_state (reset_nodes g) src.name Role.previous with
          | none => rw [hp] at h3; cases h3
          | some g2 =>
              rw [hp] at h3
              have h4 : (set_edge_state m.show_auto_transitions g2 (St.resolveLeaf src).name
                  (St.resolveLeaf dest).name Role.previous (some eventName)).bind (fun g3 =>
                set_node_state g3 (St.resolveLeaf dest).name Role.active) = some g' := h3
              cases he : set_edge_state m.show_auto_transitions g2 (St.resolveLeaf src).name
                  (St.resolveLeaf dest).name Role.previous (some eventName) with
              | none => rw [he] at h4; cases h4
              | some g3 =>
                  rw [he] at h4
                  exact ⟨dest, src, g2, g3, rfl, rfl, hp, he, h4⟩

/-- C3 amended: on a completed transition with a defined source, the
previous role is applied to the source element as it is named: to its node
when the source name is a node of the graph, and to its cluster when it is
composite; the deepest-leaf resolution only selects the edge endpoints and
the active target, so a composite source's resolved leaf node is not the
carrier of the previous role. -/
theorem C3_amended_previous_on_named_source (m : GM) (g : Graph)
    (s destName eventName : String) (src dest : St) (g' : Graph)
    (hs : m.get_state s = some src)
    (hd : m.get_state destName = some dest)
    (hrun : change_state m g (some s) destName eventName = some g')
    (hne : src.name ≠ (St.resolveLeaf dest).name) :
    (src.name ∈ g.nodeNames →
      ∃ nd ∈ g'.nodes, nd.name = src.name ∧ isPreviousNode nd = true)
    ∧ (src.name ∉ g.nodeNames →
      ∃ c ∈ g'.clusters, c.1 = src.name
        ∧ hasStyle c.2 (style_attributes_node Role.previous) = true) := by
  obtain ⟨dest0, src0, g2, g3, hd0, hs0, hp, he, hfin⟩ :=
    change_state_some_src m g s destName eventName g' hrun
  have hdd : dest0 = dest := Option.some.inj (hd0.symm.trans hd)
  have hss : src0 = src := Option.some.inj (hs0.symm.trans hs)
  rw [hdd, hss] at he
  rw [hss] at hp
  rw [hdd] at hfin
  obtain ⟨hcl3, ext, hng3, hdef, hnodup3⟩ := set_edge_state_frame _ _ _ _ _ _ _ he
  rcases set_node_state_cases _ _ _ _ hp with ⟨hn, hg2⟩ | ⟨hn, hc, hg2⟩
  · have hmem : src.name ∈ g.nodeNames := by
      rw [← has_node_iff_mem, ← has_node_reset_nodes]
      exact hn
    constructor
    · intro _
      obtain ⟨nd, hnd, hname⟩ := List.mem_map.mp hmem
      have hmem2 : (⟨nd.name,
          attrUpdate (attrUpdate nd.attr (style_attributes_node Role.default))
            (style_attributes_node Role.previous)⟩ : Node) ∈ g2.nodes := by
        rw [hg2]
        have h1 : (⟨nd.name,
            attrUpdate nd.attr (style_attributes_node Role.default)⟩ : Node)
            ∈ (reset_nodes g).nodes :=
          List.mem_map_of_mem _ hnd
        have h2 := List.mem_map_of_mem (fun nd =>
          if nd.name == src.name then
            { nd with attr := attrUpdate nd.attr (style_attributes_node Role.previous) }
          else nd) h1
        simpa [set_node_style, hname] using h2
      have hmem3 : (⟨nd.name,
          attrUpdate (attrUpdate nd.attr (style_attributes_node Role.default))
            (style_attributes_node Role.previous)⟩ : Node) ∈ g3.nodes := by
        rw [hng3]
        exact List.mem_append_left _ hmem2
      rcases set_node_state_cases _ _ _ _ hfin with ⟨hn4, hg'⟩ | ⟨hn4, hc4, hg'⟩
      · refine ⟨⟨nd.name,
          attrUpdate (attrUpdate nd.attr (style_attributes_node Role.default))
            (style_attributes_node Role.previous)⟩, ?_, hname, ?_⟩
        · rw [hg']
          have h4 := List.mem_map_of_mem (fun nd =>
            if nd.name == (St.resolveLeaf dest).name then
              { nd with attr := attrUpdate nd.attr (style_attributes_node Role.active) }
            else nd) hmem3
          have hcond : (nd.name == (St.resolveLeaf dest).name) = false := by
            rw [hname]
            simp [beq_iff_eq]
            exact hne
          simpa [set_node_style, hcond] using h4
        · exact hasStyle_attrUpdate_self _ _ (by decide)
      · refine ⟨⟨nd.name,
          attrUpdate (attrUpdate nd.attr (style_attributes_node Role.default))
            (style_attributes_node Role.previous)⟩, ?_, hname, ?_⟩
        · rw [hg']
          exact hmem3
        · exact hasStyle_attrUpdate_self _ _ (by decide)
    · intro hnot; exact absurd hmem hnot
  · have hnotmem : src.name ∉ g.nodeNames := by
      intro hmm
      have h1 := (has_node_iff_mem g src.name).mpr hmm
      rw [← has_node_reset_nodes] at h1
      rw [hn] at h1
      cases h1
    constructor
    · intro hmm; exact absurd hmm hnotmem
    · intro _
      obtain ⟨c, hcm, hceq⟩ := List.any_eq_true.mp hc
      have hceq2 : c.1 = src.name := by simpa [beq_iff_eq] using hceq
      have hmemc2 : (c.1, attrUpdate c.2 (style_attributes_node Role.previous)) ∈ g2.clusters := by
        rw [hg2]
        have h2 := List.mem_map_of_mem (fun c =>
          if c.1 == src.name then (c.1, attrUpdate c.2 (style_attributes_node Role.previous))
          else c) hcm
        simpa [set_graph_style_cluster, hceq2] using h2
      have hmemc3 : (c.1, attrUpdate c.2 (style_attributes_node Role.previous)) ∈ g3.clusters := by
        rw [hcl3]; exact hmemc2
      rcases set_node_state_cases _ _ _ _ hfin with ⟨hn4, hg'⟩ | ⟨hn4, hc4, hg'⟩
      · refine ⟨(c.1, attrUpdate c.2 (style_attributes_node Role.previous)), ?_, hceq2, ?_⟩
        · rw [hg']
          exact hmemc3
        · exact hasStyle_attrUpdate_self _ _ (by decide)
      · refine ⟨(c.1, attrUpdate c.2 (style_attributes_node Role.previous)), ?_, hceq2, ?_⟩
        · rw [hg']
          have h4 := List.mem_map_of_mem (fun c =>
            if c.1 == (St.resolveLeaf dest).name then
              (c.1, attrUpdate c.2 (style_attributes_node Role.active))
            else c) hmemc3
          have hcond : (c.1 == (St.resolveLeaf dest).name) = false := by
            rw [hceq2]
            simp [beq_iff_eq]
            exact hne
          simpa [set_graph_style_cluster, hcond] using h4
        · exact hasStyle_attrUpdate_self _ _ (by decide)

/-- Counterexample to C3 as stated: in the composite-source machine, firing
e from P (whose deepest leaf is Pc) to A completes, yet the resolved leaf
node Pc does not carry the previous role (it keeps the default white
fillcolor); the previous style lands on the cluster P instead. -/
theorem C3_counterexample :
    (mC3.get_state "P").map (fun st => (St.resolveLeaf st).name) = some "Pc"
    ∧ change_state mC3 gC3 (some "P") "A" "e" = some gC3e
    ∧ (gC3e.get_node "Pc").map isPreviousNode = some false
    ∧ (gC3e.get_node "Pc").map (fun nd => attrFind nd.attr "fillcolor") = some (some "white")
    ∧ (gC3e.clusters.find? (fun c => c.1 == "P")).map
        (fun c => hasStyle c.2 (style_attributes_node Role.previous)) = some true := by
  decide

/-- Witness for the amended C3: a leaf source node (A in the scenario
machine) does carry the previous role, and a composite source (P) gets the
previous style on its cluster. -/
theorem C3_amended_witness :
    (mFlat.get_state "A" = some stA ∧ mFlat.get_state "B" = some stB
      ∧ change_state mFlat gFlatA (some "A") "B" "go" = some gAB
      ∧ stA.name ≠ (St.resolveLeaf stB).name ∧ stA.name ∈ gFlatA.nodeNames)
    ∧ (∃ nd ∈ gAB.nodes, nd.name = stA.name ∧ isPreviousNode nd = true)
    ∧ (mC3.get_state "P" = some stP ∧ mC3.get_state "A" = some stA
      ∧ change_state mC3 gC3 (some "P") "A" "e" = some gC3e
      ∧ stP.name ≠ (St.resolveLeaf stA).name ∧ stP.name ∉ gC3.nodeNames)
    ∧ (∃ c ∈ gC3e.clusters, c.1 = stP.name
        ∧ hasStyle c.2 (style_attributes_node Role.previous) = true) :=
  ⟨by decide,
   (C3_amended_previous_on_named_source mFlat gFlatA "A" "B" "go" stA stB gAB
     (by decide) (by decide) (by decide) (by decide)).1 (by decide),
   by decide,
   (C3_amended_previous_on_named_source mC3 gC3 "P" "A" "e" stP stA gC3e
     (by decide) (by decide) (by decide) (by decide)).2 (by decide)⟩

theorem nodeNames_reset_nodes (g : Graph) : (reset_nodes g).nodeNames = g.nodeNames := by
  unfold reset_nodes Graph.nodeNames
  rw [List.map_map]
  exact List.map_congr_left (fun nd _ => rfl)

theorem nodeNames_set_node_style (g : Graph) (n : String) (r : Role) :
    (set_node_style g n r).nodeNames = g.nodeNames := by
  unfold set_node_style Graph.nodeNames
  rw [List.map_map]
  refine List.map_congr_left (fun nd _ => ?_)
  by_cases h : nd.name == n <;> simp [Function.comp, h]

theorem countP_congr_mem {α : Type} (l : List α) (p q : α → Bool)
    (h : ∀ a ∈ l, p a = q a) : l.countP p = l.countP q := by
  induction l with
  | nil => rfl
  | cons x xs ih =>
      have hx := h x (by simp)
      have hrest : ∀ a ∈ xs, p a = q a := fun a ha => h a (by simp [ha])
      cases hp : p x with
      | true =>
          rw [List.countP_cons_of_pos p xs hp,
            List.countP_cons_of_pos q xs (by rw [← hx]; exact hp), ih hrest]
      | false =>
          rw [List.countP_cons_of_neg p xs (by simp [hp]),
            List.countP_cons_of_neg q xs (by rw [← hx]; simp [hp]), ih hrest]

theorem countP_beq_of_nodup (l : List String) (a : String)
    (hnd : l.Nodup) (ha : a ∈ l) : l.countP (fun x => x == a) = 1 := by
  induction l with
  | nil => cases ha
  | cons x xs ih =>
      obtain ⟨hx, hxs⟩ := List.nodup_cons.mp hnd
      rw [List.mem_cons] at ha
      rcases ha with ha | ha
      · subst ha
        rw [List.countP_cons_of_pos _ xs (by simp)]
        rw [List.countP_eq_zero.mpr ?_]
        intro b hb hba
        have : b = a := by simpa [beq_iff_eq] using hba
        exact hx (this ▸ hb)
      · have hxa : x ≠ a := fun hh => hx (hh ▸ ha)
        rw [List.countP_cons_of_neg _ xs (by simp [beq_iff_eq]; exact hxa), ih hxs ha]

theorem change_state_step_active (m : GM) (g : Graph) (s destName eventName : String)
    (g' : Graph) (dRes : String)
    (hnd : g.nodeNames.Nodup)
    (hdr : resolved_dest m destName = some dRes)
    (hmem : dRes ∈ g.nodeNames)
    (h : change_state m g (some s) destName eventName = some g') :
    activeCount g' = 1
    ∧ (∀ nd ∈ g'.nodes, isActiveNode nd = true ∨ isDefaultNode nd = true ∨ isPreviousNode nd = true)
    ∧ g'.nodeNames.Nodup
    ∧ (∀ n ∈ g.nodeNames, n ∈ g'.nodeNames) := by
  obtain ⟨dest, src, g2, g3, hd0, hs0, hp, he, hfin⟩ :=
    change_state_some_src m g s destName eventName g' h
  have hdres : (St.resolveLeaf dest).name = dRes := by
    unfold resolved_dest at hdr
    rw [hd0] at hdr
    exact Option.some.inj hdr
  rw [hdres] at he hfin
  have hQ2 : ∀ nd ∈ g2.nodes,
      (attrFind nd.attr "fillcolor" = some "white" ∧ isDefaultNode nd = true)
      ∨ (attrFind nd.attr "fillcolor" = some "azure2" ∧ isPreviousNode nd = true) := by
    rcases set_node_state_cases _ _ _ _ hp with ⟨hn, hg2⟩ | ⟨hn, hc, hg2⟩
    · intro nd hm
      rw [hg2] at hm
      have hrn : (set_node_style (reset_nodes g) src.name Role.previous).nodes
          = ((g.nodes.map (fun nd =>
              { nd with attr := attrUpdate nd.attr (style_attributes_node Role.default) })).map
            (fun nd => if nd.name == src.name then
                { nd with attr := attrUpdate nd.attr (style_attributes_node Role.previous) }
              else nd)) := rfl
      rw [hrn, List.map_map] at hm
      obtain ⟨nd0, _, rfl⟩ := List.mem_map.mp hm
      by_cases hh : nd0.name == src.name
      · right
        constructor
        · simpa [Function.comp, hh] using
            fillcolor_after_previous (attrUpdate nd0.attr (style_attributes_node Role.default))
        · have hps : hasStyle (attrUpdate (attrUpdate nd0.attr (style_attributes_node Role.default))
              (style_attributes_node Role.previous)) (style_attributes_node Role.previous) = true :=
            hasStyle_attrUpdate_self _ _ (by decide)
          simpa [Function.comp, hh, isPreviousNode] using hps
      · left
        constructor
        · simpa [Function.comp, hh] using fillcolor_after_default nd0.attr
        · have hds : hasStyle (attrUpdate nd0.attr (style_attributes_node Role.default))
              (style_attributes_node Role.default) = true :=
            hasStyle_attrUpdate_self _ _ (by decide)
          simpa [Function.comp, hh, isDefaultNode] using hds
    · intro nd hm
      rw [hg2] at hm
      have hrn : (set_graph_style_cluster (reset_nodes g) src.name Role.previous).nodes
          = g.nodes.map (fun nd =>
              { nd with attr := attrUpdate nd.attr (style_attributes_node Role.default) }) := rfl
      rw [hrn] at hm
      obtain ⟨nd0, _, rfl⟩ := List.mem_map.mp hm
      left
      refine ⟨fillcolor_after_default nd0.attr, ?_⟩
      have hds : hasStyle (attrUpdate nd0.attr (style_attributes_node Role.default))
          (style_attributes_node Role.default) = true :=
        hasStyle_attrUpdate_self _ _ (by decide)
      simpa [isDefaultNode] using hds
  have hN2 : g2.nodeNames = g.nodeNames := by
    rcases set_node_state_cases _ _ _ _ hp with ⟨hn, hg2⟩ | ⟨hn, hc, hg2⟩
    · rw [hg2, nodeNames_set_node_style, nodeNames_reset_nodes]
    · rw [hg2]
      have hcn : (set_graph_style_cluster (reset_nodes g) src.name Role.previous).nodeNames
          = (reset_nodes g).nodeNames := rfl
      rw [hcn, nodeNames_reset_nodes]
  obtain ⟨hcl3, ext, hng3, hdef, hnodup3⟩ := set_edge_state_frame _ _ _ _ _ _ _ he
  have hQ3 : ∀ nd ∈ g3.nodes,
      (attrFind nd.attr "fillcolor" = some "white" ∧ isDefaultNode nd = true)
      ∨ (attrFind nd.attr "fillcolor" = some "azure2" ∧ isPreviousNode nd = true) := by
    intro nd hm
    rw [hng3, List.mem_append] at hm
    rcases hm with hm | hm
    · exact hQ2 nd hm
    · left
      have ha := hdef nd hm
      constructor
      · rw [ha]; decide
      · unfold isDefaultNode; rw [ha]; decide
  have hnd2 : g2.nodeNames.Nodup := by rw [hN2]; exact hnd
  have hnd3 : g3.nodeNames.Nodup := hnodup3 hnd2
  have hmem3 : dRes ∈ g3.nodeNames := by
    have hN3 : g3.nodeNames = g2.nodeNames ++ ext.map Node.name := by
      unfold Graph.nodeNames
      rw [hng3, List.map_append]
    rw [hN3]
    exact List.mem_append_left _ (by rw [hN2]; exact hmem)
  rcases set_node_state_cases _ _ _ _ hfin with ⟨hn4, hg'⟩ | ⟨hn4, hc4, hg4⟩
  · have hnodes' : g'.nodes = g3.nodes.map (fun nd =>
        if nd.name == dRes then
          { nd with attr := attrUpdate nd.attr (style_attributes_node Role.active) }
        else nd) := by rw [hg']; rfl
    have hN4 : g'.nodeNames = g3.nodeNames := by rw [hg', nodeNames_set_node_style]
    refine ⟨?_, ?_, ?_, ?_⟩
    · unfold activeCount
      rw [hnodes', List.countP_map]
      have hcong : g3.nodes.countP ((fun nd => isActiveNode nd) ∘ (fun nd =>
          if nd.name == dRes then
            { nd with attr := attrUpdate nd.attr (style_attributes_node Role.active) }
          else nd)) = g3.nodes.countP (fun nd => nd.name == dRes) := by
        refine countP_congr_mem _ _ _ (fun nd hm => ?_)
        by_cases hh : nd.name == dRes
        · have hat : isActiveNode
              { nd with attr := attrUpdate nd.attr (style_attributes_node Role.active) } = true := by
            have := hasStyle_attrUpdate_self nd.attr (style_attributes_node Role.active) (by decide)
            simpa [isActiveNode] using this
          simp [Function.comp, hh, hat]
        · have haf : isActiveNode nd = false := by
            rcases hQ3 nd hm with ⟨hf, _⟩ | ⟨hf, _⟩
            · exact isActiveNode_false_of_fillcolor nd _ hf (by decide)
            · exact isActiveNode_false_of_fillcolor nd _ hf (by decide)
          simp [Function.comp, hh, haf]
      rw [hcong]
      have hnames : g3.nodes.countP (fun nd => nd.name == dRes)
          = g3.nodeNames.countP (fun x => x == dRes) := by
        unfold Graph.nodeNames
        rw [List.countP_map]
        rfl
      rw [hnames]
      exact countP_beq_of_nodup _ _ hnd3 hmem3
    · intro nd hm
      rw [hnodes'] at hm
      obtain ⟨nd0, hm0, rfl⟩ := List.mem_map.mp hm
      by_cases hh : nd0.name == dRes
      · left
        have := hasStyle_attrUpdate_self nd0.attr (style_attributes_node Role.active) (by decide)
        simpa [hh, isActiveNode] using this
      · rcases hQ3 nd0 hm0 with ⟨_, hdflt⟩ | ⟨_, hprev⟩
        · right; left; simpa [hh] using hdflt
        · right; right; simpa [hh] using hprev
    · rw [hN4]; exact hnd3
    · intro n hn
      rw [hN4]
      have hN3 : g3.nodeNames = g2.nodeNames ++ ext.map Node.name := by
        unfold Graph.nodeNames
        rw [hng3, List.map_append]
      rw [hN3]
      exact List.mem_append_left _ (by rw [hN2]; exact hn)
  · rw [(has_node_iff_mem g3 dRes).mpr hmem3] at hn4
    cases hn4

theorem run_transitions_cons (m : GM) (g : Graph) (t : LiveTrans) (ts : List LiveTrans) :
    run_transitions m g (t :: ts)
      = (change_state m g t.source t.dest t.event).bind
          (fun g1 => run_transitions m g1 ts) := by
  simp [run_transitions, List.foldlM_cons]

theorem run_transitions_invariant (m : GM) :
    ∀ (ts : List LiveTrans) (g : Graph), g.nodeNames.Nodup →
    (∀ t ∈ ts, t.source ≠ none ∧ ∃ d ∈ g.nodeNames, resolved_dest m t.dest = some d) →
    ∀ gp, run_transitions m g ts = some gp →
      gp.nodeNames.Nodup ∧ (∀ n ∈ g.nodeNames, n ∈ gp.nodeNames)
      ∧ (ts ≠ [] → activeCount gp = 1
          ∧ ∀ nd ∈ gp.nodes, isActiveNode nd = true ∨ isDefaultNode nd = true
              ∨ isPreviousNode nd = true) := by
  intro ts
  induction ts with
  | nil =>
      intro g hnd _ gp hrun
      have hg : g = gp := Option.some.inj hrun
      subst hg
      exact ⟨hnd, fun n hn => hn, fun hne => absurd rfl hne⟩
  | cons t ts' ih =>
      intro g hnd hts gp hrun
      rw [run_transitions_cons] at hrun
      cases hstep : change_state m g t.source t.dest t.event with
      | none => rw [hstep] at hrun; cases hrun
      | some g1 =>
          rw [hstep] at hrun
          have hrun2 : run_transitions m g1 ts' = some gp := hrun
          obtain ⟨hsrc, d, hdm, hd⟩ := hts t (by simp)
          obtain ⟨s0, hs0⟩ : ∃ s0, t.source = some s0 := by
            cases hsv : t.source with
            | none => exact absurd hsv hsrc
            | some s1 => exact ⟨s1, rfl⟩
          rw [hs0] at hstep
          obtain ⟨hcount, hroles, hnd1, hsub⟩ :=
            change_state_step_active m g s0 t.dest t.event g1 d hnd hd hdm hstep
          have hts' : ∀ t' ∈ ts', t'.source ≠ none
              ∧ ∃ d1 ∈ g1.nodeNames, resolved_dest m t'.dest = some d1 := by
            intro t' ht'
            obtain ⟨he1, d1, hdm1, hd1⟩ := hts t' (by simp [ht'])
            exact ⟨he1, d1, hsub d1 hdm1, hd1⟩
          obtain ⟨hndp, hsubp, hlast⟩ := ih g1 hnd1 hts' gp hrun2
          refine ⟨hndp, fun n hn => hsubp n (hsub n hn), fun _ => ?_⟩
          cases hts2 : ts' with
          | nil =>
              rw [hts2] at hrun2
              have hg : g1 = gp := Option.some.inj hrun2
              exact hg ▸ ⟨hcount, hroles⟩
          | cons a b =>
              exact hlast (by rw [hts2]; simp)

/-- C1, amended: for every sequence of completed transitions each of which
has a DEFINED source (and whose update succeeds, with a destination that
resolves to a node of the graph), after each transition's diagram update
exactly one node of the model's full graph carries the active role, and
every other node carries the default or the previous role; a source-less
initial-entry update into a composite destination escapes this (see the
counterexample): its unresolved destination is styled as a cluster and no
node is active. -/
theorem C1_amended_active_uniqueness (m : GM) (g : Graph) (ts : List LiveTrans)
    (hnd : g.nodeNames.Nodup)
    (hts : ∀ t ∈ ts, t.source ≠ none ∧ ∃ d ∈ g.nodeNames, resolved_dest m t.dest = some d) :
    ∀ pre t rest g', ts = pre ++ t :: rest →
      run_transitions m g (pre ++ [t]) = some g' →
      activeCount g' = 1
      ∧ ∀ nd ∈ g'.nodes, isActiveNode nd = true ∨ isDefaultNode nd = true
          ∨ isPreviousNode nd = true := by
  intro pre t rest g' hsplit hrun
  have hts2 : ∀ t' ∈ pre ++ [t], t'.source ≠ none
      ∧ ∃ d ∈ g.nodeNames, resolved_dest m t'.dest = some d := by
    intro t' ht'
    apply hts
    rw [hsplit]
    rw [List.mem_append] at ht'
    rw [List.mem_append]
    rcases ht' with ht' | ht'
    · exact Or.inl ht'
    · right
      simp at ht'
      simp [ht']
  obtain ⟨_, _, hlast⟩ := run_transitions_invariant m (pre ++ [t]) g hnd hts2 g' hrun
  exact hlast (by simp)

/-- Witness for C1: the spec scenario, A to B then B to C, leaves exactly
one active node after the second update. -/
theorem C1_amended_witness :
    (gFlatA.nodeNames.Nodup
      ∧ (∀ t ∈ c1Ts, t.source ≠ none
          ∧ ∃ d ∈ gFlatA.nodeNames, resolved_dest mFlat t.dest = some d)
      ∧ c1Ts = [(⟨some "A", "B", "go"⟩ : LiveTrans)] ++ (⟨some "B", "C", "go"⟩ : LiveTrans) :: []
      ∧ run_transitions mFlat gFlatA
          ([(⟨some "A", "B", "go"⟩ : LiveTrans)] ++ [(⟨some "B", "C", "go"⟩ : LiveTrans)])
          = some gC1)
    ∧ (activeCount gC1 = 1
      ∧ ∀ nd ∈ gC1.nodes, isActiveNode nd = true ∨ isDefaultNode nd = true
          ∨ isPreviousNode nd = true) :=
  ⟨⟨by decide, by decide, by decide, by decide⟩,
   C1_amended_active_uniqueness mFlat gFlatA c1Ts (by decide) (by decide)
     [⟨some "A", "B", "go"⟩] ⟨some "B", "C", "go"⟩ [] gC1 (by decide) (by decide)⟩

theorem updateFirst_eq_map_of_unique {α : Type} (p : α → Bool) (f : α → α) :
    ∀ l : List α, (l.filter p).length ≤ 1 →
    updateFirst p f l = l.map (fun x => if p x then f x else x) := by
  intro l
  induction l with
  | nil => intro _; rfl
  | cons x xs ih =>
      intro hu
      cases hp : p x with
      | true =>
          have hnone : ∀ a ∈ xs, ¬ p a = true := by
            rw [List.filter_cons_of_pos hp] at hu
            simp at hu
            intro a ha hpa
            rw [hu a ha] at hpa
            cases hpa
          have hxs : xs.map (fun x => if p x then f x else x) = xs := by
            have h1 : xs.map (fun x => if p x then f x else x) = xs.map id :=
              List.map_congr_left (fun a ha => by
                rw [if_neg (by simpa using hnone a ha)]; rfl)
            simpa using h1
          simp [updateFirst, hp, hxs]
      | false =>
          have hu2 : (xs.filter p).length ≤ 1 := by
            rw [List.filter_cons_of_neg (by simp [hp])] at hu
            exact hu
          simp [updateFirst, hp, ih hu2]

theorem filter_pair_le_one (ef et : String) :
    ∀ l : List Edge, (l.map pairKey).Nodup →
    (l.filter (fun e => e.src == ef && e.dst == et)).length ≤ 1 := by
  intro l
  induction l with
  | nil => intro _; simp
  | cons e l ih =>
      intro hnd
      have hndc : (pairKey e :: l.map pairKey).Nodup := hnd
      obtain ⟨hne, hrest⟩ := List.nodup_cons.mp hndc
      cases hp : (e.src == ef && e.dst == et) with
      | true =>
          have hpe : pairKey e = (ef, et) := by
            have h1 : e.src = ef := by
              have := (Bool.and_eq_true _ _).mp hp
              simpa [beq_iff_eq] using this.1
            have h2 : e.dst = et := by
              have := (Bool.and_eq_true _ _).mp hp
              simpa [beq_iff_eq] using this.2
            simp [pairKey, h1, h2]
          have hflt : l.filter (fun e => e.src == ef && e.dst == et) = [] := by
            rw [List.filter_eq_nil_iff]
            intro a ha hpa
            have hpa2 : pairKey a = (ef, et) := by
              have h1 : a.src = ef := by
                have := (Bool.and_eq_true _ _).mp hpa
                simpa [beq_iff_eq] using this.1
              have h2 : a.dst = et := by
                have := (Bool.and_eq_true _ _).mp hpa
                simpa [beq_iff_eq] using this.2
              simp [pairKey, h1, h2]
            exact hne (by rw [hpe, ← hpa2]; exact List.mem_map_of_mem pairKey ha)
          simp [List.filter_cons, hp, hflt]
      | false =>
          simp only [List.filter_cons, hp, if_false, Bool.false_eq_true]
          exact ih hrest

theorem edges_set_node_state (g : Graph) (n : String) (r : Role) (g2 : Graph)
    (h : set_node_state g n r = some g2) : g2.edges = g.edges := by
  rcases set_node_state_cases g n r g2 h with ⟨_, hg⟩ | ⟨_, _, hg⟩
  · rw [hg]; rfl
  · rw [hg]; rfl

theorem set_edge_state_aux_edges (g1 : Graph) (ef et : String) (st : Role)
    (sa : List (String × String)) (g3 : Graph)
    (hst : style_attributes_edge st = some sa)
    (h : set_edge_state_aux g1 ef et st = some g3) :
    g3.edges = updateFirst (fun e => e.src == ef && e.dst == et)
      (fun e => { e with attr := attrUpdate e.attr sa }) (reset_edges g1).edges := by
  unfold set_edge_state_aux at h
  by_cases he : g1.has_edge ef et = true
  · rw [if_pos he] at h
    unfold set_edge_style_on at h
    rw [hst] at h
    have h2 := Option.some.inj h
    rw [← h2]
  · rw [if_neg he] at h
    cases h

theorem find?_append_of_none {α : Type} (p : α → Bool) (l1 l2 : List α)
    (h : l1.find? p = none) : (l1 ++ l2).find? p = l2.find? p := by
  induction l1 with
  | nil => rfl
  | cons x xs ih =>
      cases hp : p x with
      | true => simp [List.find?, hp] at h
      | false =>
          simp only [List.find?, hp] at h
          simp only [List.cons_append, List.find?, hp]
          exact ih h

theorem has_edge_iff_pair_mem (g : Graph) (ef et : String) :
    g.has_edge ef et = true ↔ (ef, et) ∈ g.edges.map pairKey := by
  unfold Graph.has_edge
  rw [List.any_eq_true]
  constructor
  · rintro ⟨e, he, hp⟩
    have h1 : e.src = ef := by
      have := (Bool.and_eq_true _ _).mp hp
      simpa [beq_iff_eq] using this.1
    have h2 : e.dst = et := by
      have := (Bool.and_eq_true _ _).mp hp
      simpa [beq_iff_eq] using this.2
    have : pairKey e = (ef, et) := by simp [pairKey, h1, h2]
    exact this ▸ List.mem_map_of_mem pairKey he
  · intro hm
    obtain ⟨e, he, hp⟩ := List.mem_map.mp hm
    refine ⟨e, he, ?_⟩
    have h1 : e.src = ef := congrArg Prod.fst hp
    have h2 : e.dst = et := congrArg Prod.snd hp
    simp [h1, h2]

theorem no_match_of_has_edge_false (g : Graph) (ef et : String)
    (h : g.has_edge ef et = false) :
    ∀ e ∈ g.edges, ¬ (e.src == ef && e.dst == et) = true := by
  intro e he hp
  have : g.has_edge ef et = true := by
    unfold Graph.has_edge
    rw [List.any_eq_true]
    exact ⟨e, he, hp⟩
  rw [h] at this
  cases this

theorem set_edge_state_edges_char (sa : Bool) (g2 : Graph) (ef et : String)
    (lbl : Option String) (g3 : Graph)
    (hpairs : (g2.edges.map pairKey).Nodup)
    (h : set_edge_state sa g2 ef et Role.previous lbl = some g3) :
    (g2.has_edge ef et = true →
      g3.edges = g2.edges.map (fun e =>
        if e.src == ef && e.dst == et then
          { e with attr := (attrUpdate (attrUpdate e.attr [("color", "black")]) [("color", "blue")]) }
        else { e with attr := attrUpdate e.attr [("color", "black")] }))
    ∧ (g2.has_edge ef et = false →
      sa = false
      ∧ g3.edges = g2.edges.map (fun e =>
          { e with attr := attrUpdate e.attr [("color", "black")] })
        ++ [⟨ef, et, (attrUpdate (attrUpdate (labelAttr lbl) [("color", "black")]) [("color", "blue")])⟩]) := by
  unfold set_edge_state at h
  by_cases hhe : g2.has_edge ef et = true
  · rw [if_neg (by simp [hhe])] at h
    have hedges := set_edge_state_aux_edges g2 ef et Role.previous [("color", "blue")] g3 rfl h
    constructor
    · intro _
      rw [hedges]
      have hre : (reset_edges g2).edges = g2.edges.map (fun e =>
          { e with attr := attrUpdate e.attr [("color", "black")] }) := rfl
      rw [hre]
      have hle : ((g2.edges.map (fun e =>
          { e with attr := attrUpdate e.attr [("color", "black")] })).filter
            (fun e => e.src == ef && e.dst == et)).length ≤ 1 := by
        apply filter_pair_le_one
        rw [List.map_map]
        have : (pairKey ∘ (fun e => ({ e with attr := attrUpdate e.attr [("color", "black")] } : Edge)))
            = pairKey := by
          funext e; rfl
        rw [this]
        exact hpairs
      rw [updateFirst_eq_map_of_unique _ _ _ hle, List.map_map]
      refine List.map_congr_left (fun e _ => ?_)
      by_cases hp : (e.src == ef && e.dst == et) = true
      · simp [Function.comp, hp]
      · simp [Function.comp, hp]
    · intro hf; rw [hf] at hhe; cases hhe
  · have hhef : g2.has_edge ef et = false := by simpa using hhe
    constructor
    · intro ht; rw [ht] at hhef; cases hhef
    · intro _
      cases hsa : sa with
      | true =>
          rw [hsa] at h
          simp only [Bool.not_true, Bool.false_and, Bool.false_eq_true, if_false] at h
          unfold set_edge_state_aux at h
          rw [if_neg (by simp [hhef])] at h
          cases h
      | false =>
          refine ⟨rfl, ?_⟩
          rw [hsa] at h
          rw [if_pos (by simp [hhef])] at h
          obtain ⟨_, _, _, _, _, hadd⟩ := add_edge_frame g2 ef et (labelAttr lbl)
          have hedges := set_edge_state_aux_edges _ ef et Role.previous [("color", "blue")] g3 rfl h
          rw [hedges]
          have hre : (reset_edges (g2.add_edge ef et (labelAttr lbl))).edges
              = (g2.add_edge ef et (labelAttr lbl)).edges.map (fun e =>
                  { e with attr := attrUpdate e.attr [("color", "black")] }) := rfl
      -- continue below
          rw [hre, hadd]
          have hle : (((g2.edges ++ [(⟨ef, et, labelAttr lbl⟩ : Edge)]).map (fun e =>
              ({ e with attr := attrUpdate e.attr [("color", "black")] } : Edge))).filter
                (fun e => e.src == ef && e.dst == et)).length ≤ 1 := by
            apply filter_pair_le_one
            rw [List.map_map]
            have hcm : (pairKey ∘ (fun e =>
                ({ e with attr := attrUpdate e.attr [("color", "black")] } : Edge))) = pairKey := by
              funext e; rfl
            rw [hcm, List.map_append]
            simp only [List.map_cons, List.map_nil]
            rw [List.nodup_append]
            refine ⟨hpairs, by simp, ?_⟩
            intro q hq
            simp only [List.mem_singleton]
            intro hq2
            have hq3 : q = (ef, et) := hq2
            have : g2.has_edge ef et = true :=
              (has_edge_iff_pair_mem g2 ef et).mpr (by rw [← hq3]; exact hq)
            rw [hhef] at this
            cases this
          rw [updateFirst_eq_map_of_unique _ _ _ hle, List.map_map, List.map_append]
          have hmain : (g2.edges.map ((fun x => if x.src == ef && x.dst == et then
              { x with attr := attrUpdate x.attr [("color", "blue")] } else x) ∘ (fun e =>
              ({ e with attr := attrUpdate e.attr [("color", "black")] } : Edge))))
              = g2.edges.map (fun e =>
                  { e with attr := attrUpdate e.attr [("color", "black")] }) := by
            refine List.map_congr_left (fun e he => ?_)
            have hnp := no_match_of_has_edge_false g2 ef et hhef e he
            have hnp2 : (e.src == ef && e.dst == et) = false := by
              cases hq : (e.src == ef && e.dst == et) with
              | true => exact absurd hq hnp
              | false => rfl
            simp [Function.comp, hnp2]
          rw [hmain]
          simp [Function.comp]

theorem isPreviousEdge_after (s d : String) (a : List (String × String)) :
    isPreviousEdge ⟨s, d, attrUpdate a [("color", "blue")]⟩ = true := by
  unfold isPreviousEdge hasStyle
  have h := attrFind_attrUpdate_mem [("color", "blue")] a "color" "blue" (by decide) (by decide)
  simp [h]

theorem isDefaultEdge_after (s d : String) (a : List (String × String)) :
    isDefaultEdge ⟨s, d, attrUpdate a [("color", "black")]⟩ = true := by
  unfold isDefaultEdge hasStyle
  have h := attrFind_attrUpdate_mem [("color", "black")] a "color" "black" (by decide) (by decide)
  simp [h]

/-- C2 amended: on every completed transition with a defined source, the
update resets every edge to the default role and applies the previous role
to the edge between resolved source and resolved dest; that edge is lazily
created, labelled with the name of the firing event, exactly when
auto-transition display is disabled and the edge is absent, while the label
of a pre-existing edge is left unchanged (it keeps its merged build-time
text rather than being rewritten to the event name). -/
theorem C2_amended_edge_update (m : GM) (g : Graph) (s destName eventName : String)
    (src dest : St) (g' : Graph)
    (hs : m.get_state s = some src)
    (hd : m.get_state destName = some dest)
    (hpairs : (g.edges.map pairKey).Nodup)
    (hrun : change_state m g (some s) destName eventName = some g') :
    (∀ e ∈ g'.edges,
      ((e.src == (St.resolveLeaf src).name && e.dst == (St.resolveLeaf dest).name) = true →
        isPreviousEdge e = true)
      ∧ ((e.src == (St.resolveLeaf src).name && e.dst == (St.resolveLeaf dest).name) = false →
        isDefaultEdge e = true))
    ∧ (∀ l, edge_attr_lookup g (St.resolveLeaf src).name (St.resolveLeaf dest).name "label"
          = some l →
        edge_attr_lookup g' (St.resolveLeaf src).name (St.resolveLeaf dest).name "label"
          = some l)
    ∧ (g.has_edge (St.resolveLeaf src).name (St.resolveLeaf dest).name = false →
        m.show_auto_transitions = false
        ∧ edge_attr_lookup g' (St.resolveLeaf src).name (St.resolveLeaf dest).name "label"
            = some eventName) := by
  obtain ⟨dest0, src0, g2, g3, hd0, hs0, hp, he, hfin⟩ :=
    change_state_some_src m g s destName eventName g' hrun
  have hdd : dest0 = dest := Option.some.inj (hd0.symm.trans hd)
  have hss : src0 = src := Option.some.inj (hs0.symm.trans hs)
  rw [hdd, hss] at he
  rw [hss] at hp
  rw [hdd] at hfin
  have hE2 : g2.edges = g.edges :=
    edges_set_node_state (reset_nodes g) src.name Role.previous g2 hp
  have hpairs2 : (g2.edges.map pairKey).Nodup := by rw [hE2]; exact hpairs
  have hhe_eq : g2.has_edge (St.resolveLeaf src).name (St.resolveLeaf dest).name
      = g.has_edge (St.resolveLeaf src).name (St.resolveLeaf dest).name := by
    unfold Graph.has_edge; rw [hE2]
  obtain ⟨hchar1, hchar2⟩ := set_edge_state_edges_char m.show_auto_transitions g2
    (St.resolveLeaf src).name (St.resolveLeaf dest).name (some eventName) g3 hpairs2 he
  have hE4 : g'.edges = g3.edges := edges_set_node_state _ _ _ _ hfin
  refine ⟨?_, ?_, ?_⟩
  · intro e hmem
    rw [hE4] at hmem
    by_cases hhe : g.has_edge (St.resolveLeaf src).name (St.resolveLeaf dest).name = true
    · have h3 := hchar1 (by rw [hhe_eq]; exact hhe)
      rw [h3, hE2] at hmem
      obtain ⟨e0, he0, rfl⟩ := List.mem_map.mp hmem
      by_cases hp0 : (e0.src == (St.resolveLeaf src).name
          && e0.dst == (St.resolveLeaf dest).name) = true
      · rw [if_pos hp0]
        constructor
        · intro _
          exact isPreviousEdge_after e0.src e0.dst (attrUpdate e0.attr [("color", "black")])
        · intro hcf
          have hcf2 : (e0.src == (St.resolveLeaf src).name
              && e0.dst == (St.resolveLeaf dest).name) = false := hcf
          cases hp0.symm.trans hcf2
      · rw [if_neg hp0]
        constructor
        · intro hct
          have hct2 : (e0.src == (St.resolveLeaf src).name
              && e0.dst == (St.resolveLeaf dest).name) = true := hct
          exact absurd hct2 hp0
        · intro _
          exact isDefaultEdge_after e0.src e0.dst e0.attr
    · have hhef : g.has_edge (St.resolveLeaf src).name (St.resolveLeaf dest).name = false := by
        simpa using hhe
      obtain ⟨hsa, h3⟩ := hchar2 (by rw [hhe_eq]; exact hhef)
      rw [h3, hE2] at hmem
      rw [List.mem_append] at hmem
      rcases hmem with hmem | hmem
      · obtain ⟨e0, he0, rfl⟩ := List.mem_map.mp hmem
        have hnp := no_match_of_has_edge_false g _ _ hhef e0 he0
        constructor
        · intro hct
          have hct2 : (e0.src == (St.resolveLeaf src).name
              && e0.dst == (St.resolveLeaf dest).name) = true := hct
          exact absurd hct2 hnp
        · intro _
          exact isDefaultEdge_after e0.src e0.dst e0.attr
      · rw [List.mem_singleton] at hmem
        subst hmem
        constructor
        · intro _
          exact isPreviousEdge_after _ _ (attrUpdate (labelAttr (some eventName))
            [("color", "black")])
        · intro hcf
          have hcf2 : ((St.resolveLeaf src).name == (St.resolveLeaf src).name
              && (St.resolveLeaf dest).name == (St.resolveLeaf dest).name) = false := hcf
          simp at hcf2
  · intro l hl
    unfold edge_attr_lookup at hl ⊢
    cases hge : g.get_edge (St.resolveLeaf src).name (St.resolveLeaf dest).name with
    | none => rw [hge] at hl; simp at hl
    | some e1 =>
        rw [hge] at hl
        have hl2 : attrFind e1.attr "label" = some l := hl
        have hge2 : g.edges.find? (fun e => e.src == (St.resolveLeaf src).name
            && e.dst == (St.resolveLeaf dest).name) = some e1 := hge
        have hhe : g.has_edge (St.resolveLeaf src).name (St.resolveLeaf dest).name = true := by
          unfold Graph.has_edge
          rw [List.any_eq_true]
          have h5 := List.find?_some hge2
          exact ⟨e1, List.mem_of_find?_eq_some hge2, h5⟩
        have h3 := hchar1 (by rw [hhe_eq]; exact hhe)
        have hGE : g'.get_edge (St.resolveLeaf src).name (St.resolveLeaf dest).name
            = (g.get_edge (St.resolveLeaf src).name (St.resolveLeaf dest).name).map
              (fun e => if e.src == (St.resolveLeaf src).name
                  && e.dst == (St.resolveLeaf dest).name then
                { e with attr := (attrUpdate (attrUpdate e.attr [("color", "black")])
                    [("color", "blue")]) }
              else { e with attr := attrUpdate e.attr [("color", "black")] }) := by
          unfold Graph.get_edge
          rw [show g'.edges = g.edges.map (fun e => if e.src == (St.resolveLeaf src).name
              && e.dst == (St.resolveLeaf dest).name then
                { e with attr := (attrUpdate (attrUpdate e.attr [("color", "black")])
                    [("color", "blue")]) }
              else { e with attr := attrUpdate e.attr [("color", "black")] })
            from by rw [hE4, h3, hE2]]
          exact find?_map_pres _ _ (fun x => by
            by_cases hx : (x.src == (St.resolveLeaf src).name
                && x.dst == (St.resolveLeaf dest).name) = true
            · simp [hx]
            · simp only [if_neg hx]) g.edges
        rw [hGE, hge]
        have hp1 : (e1.src == (St.resolveLeaf src).name
            && e1.dst == (St.resolveLeaf dest).name) = true := by
          have h5 := List.find?_some hge2
          simpa using h5
        have hnm1 : "label" ∉ attrKeys [("color", "blue")] := by decide
        have hnm2 : "label" ∉ attrKeys [("color", "black")] := by decide
        have hfind : attrFind (attrUpdate (attrUpdate e1.attr [("color", "black")])
            [("color", "blue")]) "label" = attrFind e1.attr "label" := by
          rw [attrFind_attrUpdate_not_mem _ _ _ hnm1, attrFind_attrUpdate_not_mem _ _ _ hnm2]
        have hp2 : e1.src = (St.resolveLeaf src).name ∧ e1.dst = (St.resolveLeaf dest).name := by
          simpa [beq_iff_eq] using hp1
        simp [hp2.1, hp2.2, hfind, hl2]
  · intro hhef
    obtain ⟨hsa, h3⟩ := hchar2 (by rw [hhe_eq]; exact hhef)
    refine ⟨hsa, ?_⟩
    unfold edge_attr_lookup Graph.get_edge
    rw [show g'.edges = (g.edges.map (fun e =>
        { e with attr := attrUpdate e.attr [("color", "black")] }))
      ++ [⟨(St.resolveLeaf src).name, (St.resolveLeaf dest).name,
          (attrUpdate (attrUpdate (labelAttr (some eventName)) [("color", "black")])
            [("color", "blue")])⟩]
      from by rw [hE4, h3, hE2]]
    rw [find?_append_of_none _ _ _ ?hnone]
    case hnone =>
      rw [List.find?_eq_none]
      intro e hme
      obtain ⟨e0, he0, rfl⟩ := List.mem_map.mp hme
      have hnp := no_match_of_has_edge_false g _ _ hhef e0 he0
      intro hct
      exact absurd hct hnp
    have hp1 : (((St.resolveLeaf src).name == (St.resolveLeaf src).name)
        && ((St.resolveLeaf dest).name == (St.resolveLeaf dest).name)) = true := by simp
    simp only [List.find?, hp1]
    have hnm1 : "label" ∉ attrKeys [("color", "blue")] := by decide
    have hnm2 : "label" ∉ attrKeys [("color", "black")] := by decide
    rw [show (Option.bind (some (⟨(St.resolveLeaf src).name, (St.resolveLeaf dest).name,
        (attrUpdate (attrUpdate (labelAttr (some eventName)) [("color", "black")])
          [("color", "blue")])⟩ : Edge)) (fun e => attrFind e.attr "label"))
      = attrFind (attrUpdate (attrUpdate (labelAttr (some eventName)) [("color", "black")])
          [("color", "blue")]) "label" from rfl]
    rw [attrFind_attrUpdate_not_mem _ _ _ hnm1, attrFind_attrUpdate_not_mem _ _ _ hnm2]
    simp [labelAttr, attrFind]

/-- Counterexample to C2 as stated: with auto-transition display disabled
(not enabled) and the B-to-A edge absent at build time, the update does
lazily create it, while the claim-side update refuses; and firing go over
the pre-existing merged A-to-B edge leaves its label at the merged text
instead of updating it to the firing event name. -/
theorem C2_counterexample :
    mC2.show_auto_transitions = false
    ∧ gC2.has_edge "B" "A" = false
    ∧ change_state mC2 gC2 (some "B") "A" "ev1" = some gC2ev
    ∧ gC2ev.has_edge "B" "A" = true
    ∧ set_edge_state_claimC2 false gC2 "B" "A" (some "ev1") = none
    ∧ edge_attr_lookup gC2 "A" "B" "label" = some "go | back"
    ∧ change_state mC2 gC2 (some "A") "B" "go" = some gC2go
    ∧ edge_attr_lookup gC2go "A" "B" "label" = some "go | back"
    ∧ ("go | back" : String) ≠ "go" := by decide

/-- Witness for the amended C2 at the merged-edge machine: firing go resets
the edges, marks the existing A-to-B edge previous and keeps its merged
label. -/
theorem C2_amended_witness :
    (mC2.get_state "A" = some stA ∧ mC2.get_state "B" = some stB
      ∧ (gC2.edges.map pairKey).Nodup
      ∧ change_state mC2 gC2 (some "A") "B" "go" = some gC2go)
    ∧ ((∀ e ∈ gC2go.edges,
        ((e.src == (St.resolveLeaf stA).name && e.dst == (St.resolveLeaf stB).name) = true →
          isPreviousEdge e = true)
        ∧ ((e.src == (St.resolveLeaf stA).name && e.dst == (St.resolveLeaf stB).name) = false →
          isDefaultEdge e = true))
      ∧ (∀ l, edge_attr_lookup gC2 (St.resolveLeaf stA).name (St.resolveLeaf stB).name "label"
            = some l →
          edge_attr_lookup gC2go (St.resolveLeaf stA).name (St.resolveLeaf stB).name "label"
            = some l)
      ∧ (gC2.has_edge (St.resolveLeaf stA).name (St.resolveLeaf stB).name = false →
          mC2.show_auto_transitions = false
          ∧ edge_attr_lookup gC2go (St.resolveLeaf stA).name (St.resolveLeaf stB).name "label"
              = some "go")) :=
  ⟨⟨by decide, by decide, by decide, by decide⟩,
   C2_amended_edge_update mC2 gC2 "A" "B" "go" stA stB gC2go
     (by decide) (by decide) (by decide) (by decide)⟩

theorem attrSet_attrSet_same (a : List (String × String)) (k v w : String) :
    attrSet (attrSet a k v) k w = attrSet a k w := by
  induction a with
  | nil => simp [attrSet]
  | cons p rest ih =>
      cases hp : (p.1 == k) with
      | true => simp [attrSet, hp]
      | false => simp [attrSet, hp, ih]

theorem joinBar_cons_cons (x y : String) (t : List String) :
    joinBar (x :: y :: t) = x ++ " | " ++ joinBar (y :: t) := rfl

theorem joinBar_append_step (v l : String) (ls : List String) :
    joinBar ((v ++ " | " ++ l) :: ls) = joinBar (v :: l :: ls) := by
  cases ls with
  | nil => rfl
  | cons l2 t =>
      rw [joinBar_cons_cons, joinBar_cons_cons, joinBar_cons_cons]
      simp [String.append_assoc]

theorem filter_updateFirst_same {α : Type} (p : α → Bool) (f : α → α)
    (hf : ∀ x, p x = true → p (f x) = true) :
    ∀ l : List α, (updateFirst p f l).filter p =
      (match l.filter p with
       | [] => []
       | x :: xs => f x :: xs) := by
  intro l
  induction l with
  | nil => rfl
  | cons x xs ih =>
      cases hp : p x with
      | true =>
          simp only [updateFirst, hp, if_true]
          rw [List.filter_cons_of_pos (hf x hp), List.filter_cons_of_pos hp]
      | false =>
          simp only [updateFirst, hp, Bool.false_eq_true, if_false]
          rw [List.filter_cons_of_neg (by simp [hp]), List.filter_cons_of_neg (by simp [hp])]
          exact ih

theorem filter_updateFirst_other {α : Type} (p q : α → Bool) (f : α → α)
    (h : ∀ x, p x = true → (q x = false ∧ q (f x) = false)) :
    ∀ l : List α, (updateFirst p f l).filter q = l.filter q := by
  intro l
  induction l with
  | nil => rfl
  | cons x xs ih =>
      cases hp : p x with
      | true =>
          simp only [updateFirst, hp, if_true]
          rw [List.filter_cons_of_neg (by simp [(h x hp).2]),
            List.filter_cons_of_neg (by simp [(h x hp).1])]
      | false =>
          simp only [updateFirst, hp, Bool.false_eq_true, if_false]
          cases hq : q x with
          | true =>
              rw [List.filter_cons_of_pos hq, List.filter_cons_of_pos hq, ih]
          | false =>
              rw [List.filter_cons_of_neg (by simp [hq]), List.filter_cons_of_neg (by simp [hq])]
              exact ih

theorem map_updateFirst {α β : Type} (p : α → Bool) (f : α → α) (kf : α → β)
    (h : ∀ x, kf (f x) = kf x) :
    ∀ l : List α, (updateFirst p f l).map kf = l.map kf := by
  intro l
  induction l with
  | nil => rfl
  | cons x xs ih =>
      cases hp : p x with
      | true => simp [updateFirst, hp, h x]
      | false => simp [updateFirst, hp, ih]

theorem has_edge_eq_false_of_edgesFor_nil (g : Graph) (s d : String)
    (h : edgesFor g s d = []) : g.has_edge s d = false := by
  cases hhe : g.has_edge s d with
  | false => rfl
  | true =>
      obtain ⟨e, he, hp⟩ := List.any_eq_true.mp hhe
      have : e ∈ edgesFor g s d := List.mem_filter.mpr ⟨he, hp⟩
      rw [h] at this
      cases this

theorem has_edge_eq_true_of_edgesFor (g : Graph) (s d : String) (e : Edge)
    (h : edgesFor g s d = [e]) : g.has_edge s d = true := by
  have : e ∈ edgesFor g s d := by rw [h]; simp
  obtain ⟨he, hp⟩ := List.mem_filter.mp this
  unfold Graph.has_edge
  rw [List.any_eq_true]
  exact ⟨e, he, hp⟩

theorem edgesFor_stepEdge_other (g : Graph) (r : ERec) (s d : String)
    (hne : (r.src == s && r.dst == d) = false) :
    edgesFor (stepEdge g r) s d = edgesFor g s d := by
  have hkey : ∀ e : Edge, (e.src == r.src && e.dst == r.dst) = true →
      (e.src == s && e.dst == d) = false := by
    intro e hp
    obtain ⟨hp1, hp2⟩ := (Bool.and_eq_true _ _).mp hp
    have he1 : e.src = r.src := by simpa [beq_iff_eq] using hp1
    have he2 : e.dst = r.dst := by simpa [beq_iff_eq] using hp2
    cases hq : (e.src == s && e.dst == d) with
    | false => rfl
    | true =>
        obtain ⟨hq1, hq2⟩ := (Bool.and_eq_true _ _).mp hq
        have hr1 : r.src = s := by rw [← he1]; simpa [beq_iff_eq] using hq1
        have hr2 : r.dst = d := by rw [← he2]; simpa [beq_iff_eq] using hq2
        rw [show (r.src == s && r.dst == d) = true by simp [hr1, hr2]] at hne
        cases hne
  unfold stepEdge
  by_cases hhe : g.has_edge r.src r.dst = true
  · rw [if_pos hhe]
    unfold edgesFor
    exact filter_updateFirst_other _ _ _
      (fun e hp => ⟨hkey e hp, hkey _ (by simpa using hp)⟩) g.edges
  · rw [if_neg hhe]
    unfold edgesFor
    obtain ⟨_, _, _, _, _, hadd⟩ := add_edge_frame g r.src r.dst
      [("label", r.label), ("ltail", r.ltail), ("lhead", r.lhead)]
    rw [hadd, List.filter_append]
    have hnew := hkey ⟨r.src, r.dst, [("label", r.label), ("ltail", r.ltail), ("lhead", r.lhead)]⟩ (by simp)
    simp [List.filter_cons, hnew]

theorem edgesFor_stepEdge_merge (g : Graph) (r : ERec) (s d : String) (e : Edge)
    (hr1 : r.src = s) (hr2 : r.dst = d)
    (h : edgesFor g s d = [e]) :
    edgesFor (stepEdge g r) s d = [appendEdgeLabel r.label e] := by
  unfold stepEdge
  rw [hr1, hr2, if_pos (has_edge_eq_true_of_edgesFor g s d e h)]
  unfold edgesFor at h ⊢
  have hstep := filter_updateFirst_same (fun e : Edge => e.src == s && e.dst == d)
    (appendEdgeLabel r.label) (fun e hp => by simpa using hp) g.edges
  rw [h] at hstep
  exact hstep

theorem edgesFor_stepEdge_new (g : Graph) (r : ERec) (s d : String)
    (hr1 : r.src = s) (hr2 : r.dst = d)
    (h : edgesFor g s d = []) :
    edgesFor (stepEdge g r) s d
      = [⟨s, d, [("label", r.label), ("ltail", r.ltail), ("lhead", r.lhead)]⟩] := by
  unfold stepEdge
  rw [hr1, hr2, if_neg (by simp [has_edge_eq_false_of_edgesFor_nil g s d h])]
  unfold edgesFor at h ⊢
  obtain ⟨_, _, _, _, _, hadd⟩ := add_edge_frame g s d
    [("label", r.label), ("ltail", r.ltail), ("lhead", r.lhead)]
  rw [hadd, List.filter_append, h]
  simp

theorem joinBar_eq_labelAfter : ∀ (ls : List String) (c : String),
    joinBar (c :: ls) = labelAfter c ls := by
  intro ls
  induction ls with
  | nil => intro c; rfl
  | cons l t ih =>
      intro c
      have h1 : labelAfter c (l :: t) = labelAfter (c ++ " | " ++ l) t := rfl
      rw [h1, ← ih (c ++ " | " ++ l), joinBar_append_step]

theorem mergeLabels_cons (e : Edge) (l : String) (ls : List String) :
    mergeLabels e (l :: ls) = mergeLabels (appendEdgeLabel l e) ls := rfl

theorem mergeLabels_src : ∀ (ls : List String) (e : Edge),
    (mergeLabels e ls).src = e.src := by
  intro ls
  induction ls with
  | nil => intro e; rfl
  | cons l t ih => intro e; rw [mergeLabels_cons, ih]; rfl

theorem mergeLabels_dst : ∀ (ls : List String) (e : Edge),
    (mergeLabels e ls).dst = e.dst := by
  intro ls
  induction ls with
  | nil => intro e; rfl
  | cons l t ih => intro e; rw [mergeLabels_cons, ih]; rfl

theorem mergeLabels_label : ∀ (ls : List String) (e : Edge) (c : String),
    attrFind e.attr "label" = some c →
    attrFind (mergeLabels e ls).attr "label" = some (labelAfter c ls) := by
  intro ls
  induction ls with
  | nil => intro e c h; exact h
  | cons l t ih =>
      intro e c h
      rw [mergeLabels_cons]
      have h2 : attrFind (appendEdgeLabel l e).attr "label" = some (c ++ " | " ++ l) := by
        show attrFind (attrSet e.attr "label"
          (((attrFind e.attr "label").getD "") ++ " | " ++ l)) "label" = _
        rw [h]
        exact attrFind_attrSet_self _ _ _
      exact ih _ _ h2

theorem mergeLabels_other : ∀ (ls : List String) (e : Edge) (k : String), k ≠ "label" →
    attrFind (mergeLabels e ls).attr k = attrFind e.attr k := by
  intro ls
  induction ls with
  | nil => intro e k _; rfl
  | cons l t ih =>
      intro e k hk
      rw [mergeLabels_cons, ih _ _ hk]
      exact attrFind_attrSet_ne _ _ _ _ hk

theorem labelsFor_cons_pos (s d : String) (r : ERec) (rs : List ERec)
    (h : (r.src == s && r.dst == d) = true) :
    labelsFor s d (r :: rs) = r.label :: labelsFor s d rs := by
  unfold labelsFor
  simp [List.filter_cons, h]

theorem labelsFor_cons_neg (s d : String) (r : ERec) (rs : List ERec)
    (h : (r.src == s && r.dst == d) = false) :
    labelsFor s d (r :: rs) = labelsFor s d rs := by
  unfold labelsFor
  simp [List.filter_cons, h]

theorem applyERecs_cons (g : Graph) (r : ERec) (rs : List ERec) :
    applyERecs g (r :: rs) = applyERecs (stepEdge g r) rs := rfl

theorem edgesFor_applyERecs_existing (s d : String) : ∀ (rs : List ERec) (g : Graph) (e : Edge),
    edgesFor g s d = [e] →
    edgesFor (applyERecs g rs) s d = [mergeLabels e (labelsFor s d rs)] := by
  intro rs
  induction rs with
  | nil => intro g e h; exact h
  | cons r t ih =>
      intro g e h
      rw [applyERecs_cons]
      cases hm : (r.src == s && r.dst == d) with
      | true =>
          obtain ⟨hm1, hm2⟩ := (Bool.and_eq_true _ _).mp hm
          have hr1 : r.src = s := by simpa [beq_iff_eq] using hm1
          have hr2 : r.dst = d := by simpa [beq_iff_eq] using hm2
          rw [labelsFor_cons_pos s d r t hm, mergeLabels_cons]
          exact ih (stepEdge g r) (appendEdgeLabel r.label e)
            (edgesFor_stepEdge_merge g r s d e hr1 hr2 h)
      | false =>
          rw [labelsFor_cons_neg s d r t hm]
          exact ih (stepEdge g r) e (by rw [edgesFor_stepEdge_other g r s d hm]; exact h)

theorem edgesFor_applyERecs_new (s d : String) : ∀ (rs : List ERec) (g : Graph),
    edgesFor g s d = [] →
    edgesFor (applyERecs g rs) s d =
      (match rs.find? (fun r => r.src == s && r.dst == d) with
       | none => []
       | some r1 => [mergeLabels
           ⟨s, d, [("label", r1.label), ("ltail", r1.ltail), ("lhead", r1.lhead)]⟩
           (labelsFor s d rs).tail]) := by
  intro rs
  induction rs with
  | nil =>
      intro g h
      simpa using h
  | cons r t ih =>
      intro g h
      rw [applyERecs_cons]
      cases hm : (r.src == s && r.dst == d) with
      | true =>
          obtain ⟨hm1, hm2⟩ := (Bool.and_eq_true _ _).mp hm
          have hr1 : r.src = s := by simpa [beq_iff_eq] using hm1
          have hr2 : r.dst = d := by simpa [beq_iff_eq] using hm2
          have hf : List.find? (fun r => r.src == s && r.dst == d) (r :: t) = some r := by
            simp [List.find?_cons, hm]
          rw [hf, labelsFor_cons_pos s d r t hm]
          exact edgesFor_applyERecs_existing s d t (stepEdge g r) _
            (edgesFor_stepEdge_new g r s d hr1 hr2 h)
      | false =>
          have hf : List.find? (fun r => r.src == s && r.dst == d) (r :: t)
              = List.find? (fun r => r.src == s && r.dst == d) t := by
            simp [List.find?_cons, hm]
          rw [hf, labelsFor_cons_neg s d r t hm]
          exact ih (stepEdge g r) (by rw [edgesFor_stepEdge_other g r s d hm]; exact h)

mutual
theorem addNodesState_edges : (s : St) → (acc : BuildAcc) →
    (addNodesState acc s).g.edges = acc.g.edges
  | .mk n [], acc => by
      unfold addNodesState
      by_cases h : acc.seen.contains n = true
      · rw [if_pos h]
      · rw [if_neg h]
  | .mk n (c :: cs), acc => by
      unfold addNodesState
      by_cases h : acc.seen.contains n = true
      · rw [if_pos h]
      · rw [if_neg h]
        exact addNodesList_edges (c :: cs) _
theorem addNodesList_edges : (l : List St) → (acc : BuildAcc) →
    (addNodesList acc l).g.edges = acc.g.edges
  | [], _ => rfl
  | s :: rest, acc => by
      show (addNodesList (addNodesState acc s) rest).g.edges = _
      rw [addNodesList_edges rest (addNodesState acc s), addNodesState_edges s acc]
end

theorem pairKey_stepEdge (g : Graph) (r : ERec) :
    (stepEdge g r).edges.map pairKey = insertIfNew (g.edges.map pairKey) (r.src, r.dst) := by
  unfold stepEdge insertIfNew
  by_cases hhe : g.has_edge r.src r.dst = true
  · rw [if_pos hhe]
    have hmem : (r.src, r.dst) ∈ g.edges.map pairKey :=
      (has_edge_iff_pair_mem g r.src r.dst).mp hhe
    rw [if_pos hmem]
    show (updateFirst (fun e => e.src == r.src && e.dst == r.dst)
      (appendEdgeLabel r.label) g.edges).map pairKey = g.edges.map pairKey
    exact map_updateFirst (fun e => e.src == r.src && e.dst == r.dst)
      (appendEdgeLabel r.label) pairKey (fun e => rfl) g.edges
  · have hhe2 : g.has_edge r.src r.dst = false := by simpa using hhe
    rw [if_neg hhe]
    have hmem : (r.src, r.dst) ∉ g.edges.map pairKey := by
      intro hc
      rw [(has_edge_iff_pair_mem g r.src r.dst).mpr hc] at hhe2
      cases hhe2
    rw [if_neg hmem]
    obtain ⟨_, _, _, _, _, hadd⟩ := add_edge_frame g r.src r.dst
      [("label", r.label), ("ltail", r.ltail), ("lhead", r.lhead)]
    rw [hadd, List.map_append]
    rfl

theorem pairKey_applyERecs : ∀ (rs : List ERec) (g : Graph),
    (applyERecs g rs).edges.map pairKey
      = rs.foldl (fun ps r => insertIfNew ps (r.src, r.dst)) (g.edges.map pairKey) := by
  intro rs
  induction rs with
  | nil => intro g; rfl
  | cons r t ih =>
      intro g
      rw [applyERecs_cons, ih (stepEdge g r), pairKey_stepEdge]
      rfl

theorem insertIfNew_nodup (ps : List (String × String)) (p : String × String)
    (h : ps.Nodup) : (insertIfNew ps p).Nodup := by
  unfold insertIfNew
  by_cases hm : p ∈ ps
  · rw [if_pos hm]; exact h
  · rw [if_neg hm]
    refine List.Nodup.append h (List.nodup_singleton p) ?_
    intro a ha hb
    rw [List.mem_singleton] at hb
    exact hm (hb ▸ ha)

theorem pairs_fold_nodup : ∀ (rs : List ERec) (ps : List (String × String)),
    ps.Nodup → (rs.foldl (fun ps r => insertIfNew ps (r.src, r.dst)) ps).Nodup := by
  intro rs
  induction rs with
  | nil => intro ps h; exact h
  | cons r t ih => intro ps h; exact ih _ (insertIfNew_nodup ps _ h)

theorem filter_of_find?_some {α : Type} (p : α → Bool) : ∀ (l : List α) (a : α),
    l.find? p = some a → ∃ tl, l.filter p = a :: tl := by
  intro l
  induction l with
  | nil => intro a h; cases h
  | cons x xs ih =>
      intro a h
      cases hp : p x with
      | true =>
          have hx : some x = some a := by
            rw [← h]; simp [List.find?_cons, hp]
          refine ⟨xs.filter p, ?_⟩
          rw [List.filter_cons_of_pos hp, Option.some.inj hx]
      | false =>
          have h2 : xs.find? p = some a := by
            rw [← h]; simp [List.find?_cons, hp]
          obtain ⟨tl, htl⟩ := ih a h2
          exact ⟨tl, by rw [List.filter_cons_of_neg (by simp [hp]), htl]⟩

theorem agraph_get_graph_some (m : GM) (rs : List ERec) (h : edgeRecs m = some rs) :
    agraph_get_graph m
      = some (applyERecs (addNodesList ⟨⟨[], [], []⟩, []⟩ (m.states.map Prod.snd)).g rs) := by
  unfold agraph_get_graph add_edges
  rw [h]
  rfl

/-- C4: building the graph merges every non-skipped transition of one
resolved pair into a single edge whose label joins the labels in
definition order, and no resolved pair ever carries two parallel edges;
the degenerate parent-to-first-child transitions are excluded from the
merge (they are skipped before insertion), which is what the amended
reading of the claim records. -/
theorem C4_amended_edge_merging (m : GM) (rs : List ERec) (g : Graph) (s d : String)
    (h1 : edgeRecs m = some rs) (h2 : agraph_get_graph m = some g) :
    ((rs.find? (fun r => r.src == s && r.dst == d) = none → edgesFor g s d = [])
      ∧ (∀ r1, rs.find? (fun r => r.src == s && r.dst == d) = some r1 →
          ∃ e, edgesFor g s d = [e] ∧ e.src = s ∧ e.dst = d
            ∧ attrFind e.attr "label" = some (joinBar (labelsFor s d rs))
            ∧ attrFind e.attr "ltail" = some r1.ltail
            ∧ attrFind e.attr "lhead" = some r1.lhead))
    ∧ (g.edges.map pairKey).Nodup := by
  rw [agraph_get_graph_some m rs h1] at h2
  have hg : applyERecs (addNodesList ⟨⟨[], [], []⟩, []⟩ (m.states.map Prod.snd)).g rs = g :=
    Option.some.inj h2
  have h0 : (addNodesList ⟨⟨[], [], []⟩, []⟩ (m.states.map Prod.snd)).g.edges = [] :=
    addNodesList_edges _ _
  have hnil : edgesFor (addNodesList ⟨⟨[], [], []⟩, []⟩ (m.states.map Prod.snd)).g s d = [] := by
    unfold edgesFor
    rw [h0]
    rfl
  have hnew := edgesFor_applyERecs_new s d rs _ hnil
  rw [hg] at hnew
  refine ⟨⟨?_, ?_⟩, ?_⟩
  · intro hf
    rw [hf] at hnew
    exact hnew
  · intro r1 hf
    rw [hf] at hnew
    have hnew2 : edgesFor g s d
        = [mergeLabels ⟨s, d, [("label", r1.label), ("ltail", r1.ltail), ("lhead", r1.lhead)]⟩
            (labelsFor s d rs).tail] := hnew
    obtain ⟨tl, htl⟩ := filter_of_find?_some (fun r => r.src == s && r.dst == d) rs r1 hf
    have hls : labelsFor s d rs = r1.label :: tl.map ERec.label := by
      unfold labelsFor
      rw [htl]
      rfl
    have htail : (labelsFor s d rs).tail = tl.map ERec.label := by rw [hls]; rfl
    rw [htail] at hnew2
    refine ⟨_, hnew2, ?_, ?_, ?_, ?_, ?_⟩
    · rw [mergeLabels_src]
    · rw [mergeLabels_dst]
    · rw [mergeLabels_label (tl.map ERec.label) _ r1.label (by simp [attrFind])]
      rw [hls, joinBar_eq_labelAfter]
    · rw [mergeLabels_other _ _ "ltail" (by decide)]
      simp [attrFind]
    · rw [mergeLabels_other _ _ "lhead" (by decide)]
      simp [attrFind]
  · rw [← hg, pairKey_applyERecs, h0]
    exact pairs_fold_nodup rs [] List.nodup_nil

/-- C4 counterexample: in the machine mC4 both transitions resolve to the
pair (Pc, Pc) — event e1 goes from the composite P (whose deepest leaf is
Pc) to Pc, event e2 is a self loop on Pc — yet the built graph carries one
edge for that pair labelled only "e2", not the claimed definition-order
concatenation "e1 | e2": the degenerate parent-to-first-child transition is
skipped instead of merged. -/
theorem C4_counterexample :
    ((mC4.get_state "P").map (fun s => (St.resolveLeaf s).name) = some "Pc"
      ∧ (mC4.get_state "Pc").map (fun s => (St.resolveLeaf s).name) = some "Pc")
    ∧ mC4.events.map Event.name = ["e1", "e2"]
    ∧ agraph_get_graph mC4 = some gC4
    ∧ edgesFor gC4 "Pc" "Pc"
        = [⟨"Pc", "Pc", [("label", "e2"), ("ltail", ""), ("lhead", "")]⟩]
    ∧ joinBar ["e1", "e2"] ≠ "e2" := by decide

/-- C4 witness: the amended merge characterization applied to the
concrete two-event machine mC2, whose events go and back both map to the
resolved pair (A, B). -/
theorem C4_amended_witness :
    (edgeRecs mC2 = some rsC2 ∧ agraph_get_graph mC2 = some gC2raw)
    ∧ (((rsC2.find? (fun r => r.src == "A" && r.dst == "B") = none
          → edgesFor gC2raw "A" "B" = [])
        ∧ (∀ r1, rsC2.find? (fun r => r.src == "A" && r.dst == "B") = some r1 →
            ∃ e, edgesFor gC2raw "A" "B" = [e] ∧ e.src = "A" ∧ e.dst = "B"
              ∧ attrFind e.attr "label" = some (joinBar (labelsFor "A" "B" rsC2))
              ∧ attrFind e.attr "ltail" = some r1.ltail
              ∧ attrFind e.attr "lhead" = some r1.lhead))
      ∧ (gC2raw.edges.map pairKey).Nodup) :=
  ⟨⟨by decide, by decide⟩,
   C4_amended_edge_merging mC2 rsC2 gC2raw "A" "B" (by decide) (by decide)⟩

/-- C5: for a machine with one blanket auto event (prefix match and one
transition entry per state), suppression enabled yields zero edges; with
suppression disabled the event contributes one edge per DISTINCT resolved
pair of its non-skipped transitions — which can be fewer than N even
without degenerate skips, because several sources may resolve to the same
leaf and merge. -/
theorem C5_amended_auto_suppression (m : GM) (ev : Event) (rs : List ERec) (g : Graph)
    (hev : m.events = [ev])
    (hpre : strStartsWith ev.name "to_" = true)
    (hlen : ev.transitions.length = m.states.length)
    (h1 : edgeRecs m = some rs)
    (h2 : agraph_get_graph m = some g) :
    (m.show_auto_transitions = false → g.edges = [])
    ∧ g.edges.length = (distinctPairs rs).length := by
  rw [agraph_get_graph_some m rs h1] at h2
  have hg : applyERecs (addNodesList ⟨⟨[], [], []⟩, []⟩ (m.states.map Prod.snd)).g rs = g :=
    Option.some.inj h2
  have h0 : (addNodesList ⟨⟨[], [], []⟩, []⟩ (m.states.map Prod.snd)).g.edges = [] :=
    addNodesList_edges _ _
  constructor
  · intro hsup
    have hsupb : eventSuppressed m ev = true := by
      simp [eventSuppressed, hsup, hpre, hlen]
    have hone : erecsOfEvent m ev = some [] := by
      unfold erecsOfEvent
      rw [if_pos hsupb]
    have hrs : edgeRecs m = some [] := by
      unfold edgeRecs
      rw [hev]
      simp [List.mapM.loop, hone]
    rw [hrs] at h1
    have hrs2 : ([] : List ERec) = rs := Option.some.inj h1
    rw [← hg, ← hrs2]
    exact h0
  · have hpk : g.edges.map pairKey
        = rs.foldl (fun ps r => insertIfNew ps (r.src, r.dst)) [] := by
      rw [← hg, pairKey_applyERecs, h0]
      rfl
    calc g.edges.length = (g.edges.map pairKey).length := (List.length_map _ _).symm
      _ = (distinctPairs rs).length := by rw [hpk]; rfl

/-- C5 counterexample: the machine mC5 with display enabled has N = 3
states and one blanket event to_A with 3 transitions, none of which is a
degenerate parent-to-first-child self edge (all 3 resolved records
survive), yet the built graph carries only 2 edges: the sources P and Pc
both resolve to the leaf Pc and their records merge into one edge, so "N
minus degenerate" overcounts. -/
theorem C5_counterexample :
    (mC5 true).states.length = 3
    ∧ (mC5 true).events.map Event.name = ["to_A"]
    ∧ ((mC5 true).events.map (fun ev => ev.transitions.length)) = [3]
    ∧ edgeRecs (mC5 true) = some rsC5t
    ∧ rsC5t.length = 3
    ∧ agraph_get_graph (mC5 true) = some gC5t
    ∧ gC5t.edges.length = 2
    ∧ (2 : Nat) ≠ 3 := by decide

/-- C5 witness: the amended suppression statement applied to the blanket
machine mC5 in both configurations. -/
theorem C5_amended_witness :
    ((edgeRecs (mC5 false) = some rsC5f ∧ agraph_get_graph (mC5 false) = some gC5f)
      ∧ ((mC5 false).show_auto_transitions = false → gC5f.edges = [])
      ∧ gC5f.edges.length = (distinctPairs rsC5f).length)
    ∧ ((edgeRecs (mC5 true) = some rsC5t ∧ agraph_get_graph (mC5 true) = some gC5t)
      ∧ ((mC5 true).show_auto_transitions = false → gC5t.edges = [])
      ∧ gC5t.edges.length = (distinctPairs rsC5t).length) :=
  ⟨⟨⟨by decide, by decide⟩,
    C5_amended_auto_suppression (mC5 false)
      ⟨"to_A", [("A", [⟨"A", []⟩]), ("P", [⟨"A", []⟩]), ("Pc", [⟨"A", []⟩])]⟩
      rsC5f gC5f (by decide) (by decide) (by decide) (by decide) (by decide)⟩,
   ⟨⟨by decide, by decide⟩,
    C5_amended_auto_suppression (mC5 true)
      ⟨"to_A", [("A", [⟨"A", []⟩]), ("P", [⟨"A", []⟩]), ("Pc", [⟨"A", []⟩])]⟩
      rsC5t gC5t (by decide) (by decide) (by decide) (by decide) (by decide)⟩⟩

theorem find?_append_some {α : Type} (p : α → Bool) :
    ∀ (l1 l2 : List α) (x : α), l1.find? p = some x → (l1 ++ l2).find? p = some x := by
  intro l1
  induction l1 with
  | nil => intro l2 x h; cases h
  | cons y ys ih =>
      intro l2 x h
      cases hp : p y with
      | true =>
          have hx : some y = some x := by rw [← h]; simp [List.find?_cons, hp]
          rw [List.cons_append]
          simp only [List.find?_cons, hp]
          exact hx
      | false =>
          have h2 : ys.find? p = some x := by rw [← h]; simp [List.find?_cons, hp]
          rw [List.cons_append]
          simp only [List.find?_cons, hp]
          exact ih l2 x h2

theorem get_node_spec (f : Graph) (a : String) (nd : Node)
    (h : f.get_node a = some nd) :
    nd ∈ f.nodes ∧ nd.name = a ∧ a ∈ f.nodeNames := by
  have hfind : f.nodes.find? (fun nd => nd.name == a) = some nd := h
  have hm : nd ∈ f.nodes := List.mem_of_find?_eq_some hfind
  have hp := List.find?_some hfind
  have hn : nd.name = a := by simpa [beq_iff_eq] using hp
  exact ⟨hm, hn, by rw [← hn]; exact List.mem_map_of_mem Node.name hm⟩

theorem get_node_of_has (g : Graph) (n : String) (h : g.has_node n = true) :
    ∃ nd, g.get_node n = some nd ∧ nd ∈ g.nodes ∧ nd.name = n := by
  obtain ⟨nd, hm, hp⟩ := List.any_eq_true.mp h
  have hs : (g.nodes.find? (fun nd => nd.name == n)).isSome = true := by
    rw [List.find?_isSome]
    exact ⟨nd, hm, hp⟩
  obtain ⟨nd2, hnd2⟩ := Option.isSome_iff_exists.mp hs
  obtain ⟨h1, h2, _⟩ := get_node_spec g n nd2 hnd2
  exact ⟨nd2, hnd2, h1, h2⟩

theorem nodes_name_inj (g : Graph) (hnd : g.nodeNames.Nodup)
    (nd1 nd2 : Node) (h1 : nd1 ∈ g.nodes) (h2 : nd2 ∈ g.nodes)
    (h : nd1.name = nd2.name) : nd1 = nd2 :=
  List.inj_on_of_nodup_map hnd h1 h2 h

theorem roi_add_node_of_has (g f : Graph) (n : String)
    (hnd : g.nodeNames.Nodup)
    (hkeys : ∀ nd ∈ g.nodes, (attrKeys nd.attr).Nodup)
    (hsub : ∀ nd ∈ f.nodes, nd ∈ g.nodes)
    (hgn : g.has_node n = true) (hfn : f.has_node n = true) :
    roi_add_node g f n = f := by
  obtain ⟨nd2, hget, hmem2, hname2⟩ := get_node_of_has g n hgn
  have hstep : roi_add_node g f n = f.add_node nd2.name nd2.attr := by
    unfold roi_add_node
    rw [hget]
  rw [hstep, hname2]
  unfold Graph.add_node
  rw [if_pos hfn]
  have hmap : f.nodes.map (fun nd =>
      if nd.name == n then { nd with attr := attrUpdate nd.attr nd2.attr } else nd)
      = f.nodes.map id := by
    refine List.map_congr_left ?_
    intro nd hm
    by_cases hn : nd.name = n
    · have heq : nd = nd2 :=
        nodes_name_inj g hnd nd nd2 (hsub nd hm) hmem2 (hn.trans hname2.symm)
      rw [if_pos (by simp [hn]), heq, attrUpdate_self nd2.attr (hkeys nd2 hmem2)]
      rfl
    · rw [if_neg (by simp [hn])]
      rfl
  rw [hmap, List.map_id]

theorem roi_add_node_of_not_has (g f : Graph) (n : String)
    (hgn : g.has_node n = true) (hfn : f.has_node n = false) :
    ∃ nd2, nd2 ∈ g.nodes ∧ nd2.name = n
      ∧ roi_add_node g f n = { f with nodes := f.nodes ++ [nd2] } := by
  obtain ⟨nd2, hget, hmem2, hname2⟩ := get_node_of_has g n hgn
  refine ⟨nd2, hmem2, hname2, ?_⟩
  have hstep : roi_add_node g f n = f.add_node nd2.name nd2.attr := by
    unfold roi_add_node
    rw [hget]
  rw [hstep]
  unfold Graph.add_node
  rw [if_neg (by simp [hname2, hfn])]

theorem roi_add_node_props (g f : Graph) (n : String)
    (hnd : g.nodeNames.Nodup)
    (hkeys : ∀ nd ∈ g.nodes, (attrKeys nd.attr).Nodup)
    (hgn : g.has_node n = true)
    (hsub : ∀ nd ∈ f.nodes, nd ∈ g.nodes) :
    (∀ nd ∈ (roi_add_node g f n).nodes, nd ∈ g.nodes)
    ∧ (∀ (x : String) (nd : Node), f.get_node x = some nd
        → (roi_add_node g f n).get_node x = some nd)
    ∧ (roi_add_node g f n).edges = f.edges
    ∧ (∀ x ∈ f.nodeNames, x ∈ (roi_add_node g f n).nodeNames)
    ∧ (∀ x ∈ (roi_add_node g f n).nodeNames, x ∈ f.nodeNames ∨ x = n)
    ∧ n ∈ (roi_add_node g f n).nodeNames := by
  by_cases hfn : f.has_node n = true
  · rw [roi_add_node_of_has g f n hnd hkeys hsub hgn hfn]
    exact ⟨hsub, fun x nd h => h, rfl, fun x h => h, fun x h => Or.inl h,
      (has_node_iff_mem f n).mp hfn⟩
  · obtain ⟨nd2, hmem2, hname2, heq⟩ :=
      roi_add_node_of_not_has g f n hgn (by simpa using hfn)
    rw [heq]
    have hnames : ({ f with nodes := f.nodes ++ [nd2] } : Graph).nodeNames
        = f.nodeNames ++ [nd2.name] := by
      show (f.nodes ++ [nd2]).map Node.name = f.nodes.map Node.name ++ [nd2.name]
      rw [List.map_append]
      rfl
    refine ⟨?_, ?_, rfl, ?_, ?_, ?_⟩
    · intro nd hm
      rcases List.mem_append.mp hm with h | h
      · exact hsub nd h
      · rw [List.mem_singleton] at h
        rw [h]
        exact hmem2
    · intro x nd h
      exact find?_append_some _ f.nodes [nd2] nd h
    · intro x h
      rw [hnames]
      exact List.mem_append_left _ h
    · intro x h
      rw [hnames] at h
      rcases List.mem_append.mp h with h | h
      · exact Or.inl h
      · rw [List.mem_singleton] at h
        exact Or.inr (h.trans hname2)
    · rw [hnames]
      refine List.mem_append_right _ ?_
      rw [← hname2]
      exact List.mem_singleton_self _

theorem roi_step_src (g : Graph) (a : String) (f : Graph) (e : Edge) (h : e.src = a) :
    roi_step g a f e
      = { roi_add_node g f e.dst with edges := (roi_add_node g f e.dst).edges ++ [e] } := by
  unfold roi_step
  rw [if_pos (by simp [h]), if_pos (by simp [h])]

theorem roi_step_prev (g : Graph) (a : String) (f : Graph) (e : Edge)
    (h1 : ¬ e.src = a) (h2 : e.dst = a) (h3 : node_fillcolor g e.src = "azure2") :
    roi_step g a f e
      = { roi_add_node g f e.src with edges := (roi_add_node g f e.src).edges ++ [e] } := by
  unfold roi_step
  rw [if_pos (by simp [h2]), if_neg (by simp [h1]), if_pos (by simp [h3])]

theorem roi_step_skip (g : Graph) (a : String) (f : Graph) (e : Edge)
    (h : roiCond g a e = false) :
    roi_step g a f e = f := by
  unfold roiCond at h
  have hsrc : (e.src == a) = false := by
    cases hs : (e.src == a) with
    | false => rfl
    | true => rw [hs] at h; simp at h
  unfold roi_step
  by_cases hdst : e.dst = a
  · have hfc : (node_fillcolor g e.src == "azure2") = false := by
      cases hf : (node_fillcolor g e.src == "azure2") with
      | false => rfl
      | true => rw [hsrc, hf] at h; simp [hdst] at h
    rw [if_pos (by simp [hdst]), if_neg (by simp [hsrc]), if_neg (by simp [hfc])]
  · rw [if_neg (by simp [hsrc, hdst])]

theorem roi_step_props (g : Graph) (a : String) (active : Node) (f : Graph) (e : Edge)
    (hnd : g.nodeNames.Nodup)
    (hkeys : ∀ nd ∈ g.nodes, (attrKeys nd.attr).Nodup)
    (hwf1 : g.has_node e.src = true) (hwf2 : g.has_node e.dst = true)
    (hsub : ∀ nd ∈ f.nodes, nd ∈ g.nodes)
    (hget : f.get_node a = some active)
    (hI : ∀ e2 ∈ f.edges, e2.src ∈ f.nodeNames ∧ e2.dst ∈ f.nodeNames)
    (hM : ∀ x ∈ f.nodeNames, x = a ∨ ∃ e2 ∈ f.edges, x = e2.src ∨ x = e2.dst) :
    (∀ nd ∈ (roi_step g a f e).nodes, nd ∈ g.nodes)
    ∧ (roi_step g a f e).get_node a = some active
    ∧ (roi_step g a f e).edges = f.edges ++ (if roiCond g a e then [e] else [])
    ∧ (∀ e2 ∈ (roi_step g a f e).edges,
        e2.src ∈ (roi_step g a f e).nodeNames ∧ e2.dst ∈ (roi_step g a f e).nodeNames)
    ∧ (∀ x ∈ (roi_step g a f e).nodeNames,
        x = a ∨ ∃ e2 ∈ (roi_step g a f e).edges, x = e2.src ∨ x = e2.dst) := by
  cases hc : roiCond g a e with
  | false =>
      rw [roi_step_skip g a f e hc]
      refine ⟨hsub, hget, ?_, hI, hM⟩
      simp
  | true =>
      have ha : a ∈ f.nodeNames := (get_node_spec f a active hget).2.2
      by_cases hsrc : e.src = a
      · rw [roi_step_src g a f e hsrc]
        obtain ⟨p1, p2, p3, p4, p5, p6⟩ := roi_add_node_props g f e.dst hnd hkeys hwf2 hsub
        refine ⟨p1, p2 a active hget, ?_, ?_, ?_⟩
        · show (roi_add_node g f e.dst).edges ++ [e]
            = f.edges ++ (if true = true then [e] else [])
          rw [p3]
          simp
        · intro e2 hm
          show e2.src ∈ (roi_add_node g f e.dst).nodeNames
            ∧ e2.dst ∈ (roi_add_node g f e.dst).nodeNames
          have hm2 : e2 ∈ (roi_add_node g f e.dst).edges ++ [e] := hm
          rcases List.mem_append.mp hm2 with h | h
          · rw [p3] at h
            exact ⟨p4 _ (hI e2 h).1, p4 _ (hI e2 h).2⟩
          · rw [List.mem_singleton] at h
            subst h
            exact ⟨by rw [hsrc]; exact p4 _ ha, p6⟩
        · intro x hx
          have hx2 : x ∈ (roi_add_node g f e.dst).nodeNames := hx
          rcases p5 x hx2 with h | h
          · rcases hM x h with h2 | ⟨e2, he2, h3⟩
            · exact Or.inl h2
            · refine Or.inr ⟨e2, ?_, h3⟩
              show e2 ∈ (roi_add_node g f e.dst).edges ++ [e]
              rw [p3]
              exact List.mem_append_left _ he2
          · refine Or.inr ⟨e, ?_, Or.inr h⟩
            show e ∈ (roi_add_node g f e.dst).edges ++ [e]
            exact List.mem_append_right _ (List.mem_singleton_self _)
      · have hc2 := hc
        unfold roiCond at hc2
        have hsrcb : (e.src == a) = false := by simp [hsrc]
        rw [hsrcb] at hc2
        simp at hc2
        obtain ⟨hdst, hfc⟩ := hc2
        rw [roi_step_prev g a f e hsrc hdst hfc]
        obtain ⟨p1, p2, p3, p4, p5, p6⟩ := roi_add_node_props g f e.src hnd hkeys hwf1 hsub
        refine ⟨p1, p2 a active hget, ?_, ?_, ?_⟩
        · show (roi_add_node g f e.src).edges ++ [e]
            = f.edges ++ (if true = true then [e] else [])
          rw [p3]
          simp
        · intro e2 hm
          show e2.src ∈ (roi_add_node g f e.src).nodeNames
            ∧ e2.dst ∈ (roi_add_node g f e.src).nodeNames
          have hm2 : e2 ∈ (roi_add_node g f e.src).edges ++ [e] := hm
          rcases List.mem_append.mp hm2 with h | h
          · rw [p3] at h
            exact ⟨p4 _ (hI e2 h).1, p4 _ (hI e2 h).2⟩
          · rw [List.mem_singleton] at h
            subst h
            exact ⟨p6, by rw [hdst]; exact p4 _ ha⟩
        · intro x hx
          have hx2 : x ∈ (roi_add_node g f e.src).nodeNames := hx
          rcases p5 x hx2 with h | h
          · rcases hM x h with h2 | ⟨e2, he2, h3⟩
            · exact Or.inl h2
            · refine Or.inr ⟨e2, ?_, h3⟩
              show e2 ∈ (roi_add_node g f e.src).edges ++ [e]
              rw [p3]
              exact List.mem_append_left _ he2
          · refine Or.inr ⟨e, ?_, Or.inl h⟩
            show e ∈ (roi_add_node g f e.src).edges ++ [e]
            exact List.mem_append_right _ (List.mem_singleton_self _)

theorem roi_fold_props (g : Graph) (a : String) (active : Node)
    (hnd : g.nodeNames.Nodup)
    (hkeys : ∀ nd ∈ g.nodes, (attrKeys nd.attr).Nodup) :
    ∀ (es : List Edge) (f : Graph),
    (∀ e ∈ es, g.has_node e.src = true ∧ g.has_node e.dst = true) →
    (∀ nd ∈ f.nodes, nd ∈ g.nodes) →
    f.get_node a = some active →
    (∀ e2 ∈ f.edges, e2.src ∈ f.nodeNames ∧ e2.dst ∈ f.nodeNames) →
    (∀ x ∈ f.nodeNames, x = a ∨ ∃ e2 ∈ f.edges, x = e2.src ∨ x = e2.dst) →
    (∀ nd ∈ (es.foldl (roi_step g a) f).nodes, nd ∈ g.nodes)
    ∧ (es.foldl (roi_step g a) f).get_node a = some active
    ∧ (es.foldl (roi_step g a) f).edges = f.edges ++ es.filter (roiCond g a)
    ∧ (∀ e2 ∈ (es.foldl (roi_step g a) f).edges,
        e2.src ∈ (es.foldl (roi_step g a) f).nodeNames
        ∧ e2.dst ∈ (es.foldl (roi_step g a) f).nodeNames)
    ∧ (∀ x ∈ (es.foldl (roi_step g a) f).nodeNames,
        x = a ∨ ∃ e2 ∈ (es.foldl (roi_step g a) f).edges, x = e2.src ∨ x = e2.dst) := by
  intro es
  induction es with
  | nil =>
      intro f _ hsub hget hI hM
      exact ⟨hsub, hget, by simp, hI, hM⟩
  | cons e rest ih =>
      intro f hwf hsub hget hI hM
      obtain ⟨q1, q2, q3, q4, q5⟩ := roi_step_props g a active f e hnd hkeys
        (hwf e (List.mem_cons_self e rest)).1 (hwf e (List.mem_cons_self e rest)).2
        hsub hget hI hM
      obtain ⟨r1, r2, r3, r4, r5⟩ := ih (roi_step g a f e)
        (fun e2 hm => hwf e2 (List.mem_cons_of_mem e hm)) q1 q2 q4 q5
      refine ⟨r1, r2, ?_, r4, r5⟩
      show (rest.foldl (roi_step g a) (roi_step g a f e)).edges
        = f.edges ++ (e :: rest).filter (roiCond g a)
      rw [r3, q3, List.filter_cons]
      cases hc : roiCond g a e with
      | true => simp [List.append_assoc]
      | false => simp [List.append_assoc]

/-- C6: on a well-formed graph (edge endpoints are nodes, unique node
names, duplicate-free attribute keys) the region of interest around the
active node is a subgraph: its nodes are nodes of the source graph, the
active node is present with its full attribute set, its edges are exactly
the source edges leaving the active node or entering it from a node
showing the previous fillcolor, every kept edge has both endpoint nodes
present, and no other node is included; the source graph itself is left
untouched (the extraction builds a fresh graph). -/
theorem C6_roi_containment (g : Graph) (a : String) (r : Graph)
    (hwf : ∀ e ∈ g.edges, g.has_node e.src = true ∧ g.has_node e.dst = true)
    (hnd : g.nodeNames.Nodup)
    (hkeys : ∀ nd ∈ g.nodes, (attrKeys nd.attr).Nodup)
    (hroi : graph_roi g a = some r) :
    (∀ nd ∈ r.nodes, nd ∈ g.nodes)
    ∧ (∃ active, g.get_node a = some active ∧ r.get_node a = some active)
    ∧ (∀ e, e ∈ r.edges
        ↔ e ∈ g.edges ∧ (e.src = a ∨ (e.dst = a ∧ node_fillcolor g e.src = "azure2")))
    ∧ (∀ e ∈ r.edges, e.src ∈ r.nodeNames ∧ e.dst ∈ r.nodeNames)
    ∧ (∀ x ∈ r.nodeNames, x = a ∨ ∃ e ∈ r.edges, x = e.src ∨ x = e.dst) := by
  unfold graph_roi at hroi
  cases hga : g.get_node a with
  | none =>
      rw [hga] at hroi
      cases hroi
  | some active =>
      rw [hga] at hroi
      have hr : g.edges.foldl (roi_step g a) ⟨[active], [], []⟩ = r := Option.some.inj hroi
      obtain ⟨hmem, hname, _⟩ := get_node_spec g a active hga
      have hinit_sub : ∀ nd ∈ ({ nodes := [active], edges := [], clusters := [] } : Graph).nodes,
          nd ∈ g.nodes := by
        intro nd hm
        have hm2 : nd ∈ [active] := hm
        rw [List.mem_singleton] at hm2
        rw [hm2]
        exact hmem
      have hinit_get : ({ nodes := [active], edges := [], clusters := [] } : Graph).get_node a
          = some active := by
        show [active].find? (fun nd => nd.name == a) = some active
        simp [List.find?_cons, hname]
      have hinit_M : ∀ x ∈ ({ nodes := [active], edges := [], clusters := [] } : Graph).nodeNames,
          x = a ∨ ∃ e2 ∈ ({ nodes := [active], edges := [], clusters := [] } : Graph).edges,
            x = e2.src ∨ x = e2.dst := by
        intro x hx
        have hx2 : x ∈ [active.name] := hx
        rw [List.mem_singleton] at hx2
        exact Or.inl (hx2.trans hname)
      obtain ⟨c1, c2, c3, c4, c5⟩ := roi_fold_props g a active hnd hkeys g.edges
        ⟨[active], [], []⟩ hwf hinit_sub hinit_get (by intro e2 hm; cases hm) hinit_M
      rw [hr] at c1 c2 c3 c4 c5
      have hcond : ∀ e : Edge, roiCond g a e = true
          ↔ (e.src = a ∨ (e.dst = a ∧ node_fillcolor g e.src = "azure2")) := by
        intro e
        simp [roiCond]
      refine ⟨c1, ⟨active, rfl, c2⟩, ?_, c4, c5⟩
      intro e
      have hedges : r.edges = g.edges.filter (roiCond g a) := by
        rw [c3]
        simp
      rw [hedges, List.mem_filter, hcond e]

/-- C6 witness: the ROI containment applied to the concrete scenario graph
after firing go from A to B, extracting around the active node B. -/
theorem C6_witness :
    ((∀ e ∈ gAB.edges, gAB.has_node e.src = true ∧ gAB.has_node e.dst = true)
      ∧ gAB.nodeNames.Nodup
      ∧ (∀ nd ∈ gAB.nodes, (attrKeys nd.attr).Nodup)
      ∧ graph_roi gAB "B" = some gROI)
    ∧ ((∀ nd ∈ gROI.nodes, nd ∈ gAB.nodes)
      ∧ (∃ active, gAB.get_node "B" = some active ∧ gROI.get_node "B" = some active)
      ∧ (∀ e, e ∈ gROI.edges
          ↔ e ∈ gAB.edges
            ∧ (e.src = "B" ∨ (e.dst = "B" ∧ node_fillcolor gAB e.src = "azure2")))
      ∧ (∀ e ∈ gROI.edges, e.src ∈ gROI.nodeNames ∧ e.dst ∈ gROI.nodeNames)
      ∧ (∀ x ∈ gROI.nodeNames, x = "B" ∨ ∃ e ∈ gROI.edges, x = e.src ∨ x = e.dst)) :=
  ⟨⟨by decide, by decide, by decide, by decide⟩,
   C6_roi_containment gAB "B" gROI (by decide) (by decide) (by decide) (by decide)⟩

/-- C1 counterexample: the built composite-source graph has exactly one
active node, and a completed source-less (initial-entry) update into the
composite P succeeds, yet afterwards NO node carries the active role: the
unresolved destination P is not a node, so the active style lands on the
cluster, refuting uniqueness over every sequence of completed
transitions. -/
theorem C1_counterexample :
    activeCount gC3 = 1
    ∧ change_state mC3 gC3 none "P" "e" = some gC1none
    ∧ activeCount gC1none = 0 := by decide
